import Mathlib

set_option autoImplicit false

/-!
# Verification of the `create-velocity-astro` upgrade engine

A shallow embedding of the upgrade engine of the `create-velocity-astro`
CLI (files `src/utils/diff.ts`, `src/upgrade.ts`, `src/utils/velocity-config.ts`
and the type declarations in `src/types.ts`), together with proofs of the
behavioural properties stated in the specification.

Modelling conventions:
* A filesystem tree is a mutual inductive (`FsEntry` / `FsEntries`): a file
  carries its byte contents (`List Nat`, as read by `readFileSync` without an
  encoding) and optionally its text contents (`Option String`, as read by
  `readFileSync(⬝, 'utf-8')`; `none` models a file whose read as text throws,
  e.g. on a permission or decoding error).  A directory carries a named list
  of children; real directories never repeat a name, which is captured by the
  well-formedness predicate `FsEntry.wfB`.
* A path on disk is its list of segments (`List String`).  A *declared* path
  pattern from a manifest is a `PathEntry`: its segments plus a flag recording
  whether it was written with a trailing path separator (`"src/lib/"` versus
  `"src/lib"`), which is what `p.endsWith('/')` tests in the source.
* A directory that may not exist (a root handed to `walkDir`, `expandPaths`
  or the diff engine) is an `Fs := Option FsEntry`; `none` models a
  non-existent root, so `existsSync` under it is false for every path.
* Throwing code is embedded in `Except Unit` (`readFileSync` on a directory
  throws `EISDIR`, which `diffProjects` does not catch).
* JavaScript objects (`package.json` sections, manifest dependency blocks)
  are association lists with distinct keys; `getA` / `setA` / `delA` mirror
  property read, property assignment (update in place, insert at the end) and
  `delete`.  JS `Map` (`results.set`) has the same update-in-place semantics.
-/

namespace Velocity

/-! ## Generic association lists (JS objects / Maps) -/

/-- Property read `o[k]`: the first binding of the key. -/
def getA {β : Type} : List (String × β) → String → Option β
  | [], _ => none
  | (k, v) :: rest, n => if k = n then some v else getA rest n

/-- Property write `o[k] = v`: update the first binding in place, or append a
new binding at the end — exactly the insertion-order semantics of JS objects
and of `Map.set`. -/
def setA {β : Type} : List (String × β) → String → β → List (String × β)
  | [], n, v => [(n, v)]
  | (k, w) :: rest, n, v =>
    if k = n then (k, v) :: rest else (k, w) :: setA rest n v

/-- Property deletion `delete o[k]`. -/
def delA {β : Type} (l : List (String × β)) (n : String) : List (String × β) :=
  l.filter (fun kv => kv.1 ≠ n)

/-- The keys of an association list. -/
def keysA {β : Type} (l : List (String × β)) : List String := l.map Prod.fst

/-! ## Filesystem model -/

mutual
/-- A node of a filesystem tree (see the module docstring). -/
inductive FsEntry where
  | file (bytes : List Nat) (text : Option String) : FsEntry
  | dir (entries : FsEntries) : FsEntry

/-- The named children of a directory, in `readdirSync` order. -/
inductive FsEntries where
  | nil : FsEntries
  | cons (name : String) (entry : FsEntry) (rest : FsEntries) : FsEntries
end

/-- Child lookup by name (first match, as on a real filesystem where names
are unique). -/
def FsEntries.lookup : FsEntries → String → Option FsEntry
  | .nil, _ => none
  | .cons k e rest, n => if k = n then some e else FsEntries.lookup rest n

/-- The names of a directory's children. -/
def FsEntries.names : FsEntries → List String
  | .nil => []
  | .cons k _ rest => k :: FsEntries.names rest

mutual
/-- Well-formedness: no directory repeats a child name. -/
def FsEntry.wfB : FsEntry → Bool
  | .file _ _ => true
  | .dir es => es.wfB

def FsEntries.wfB : FsEntries → Bool
  | .nil => true
  | .cons k e rest =>
    !((FsEntries.names rest).contains k) && e.wfB && rest.wfB
end

/-- A directory tree that may not exist at all (`none`). -/
def Fs := Option FsEntry

/-- Resolve a relative path inside one tree node. -/
def FsEntry.resolve : FsEntry → List String → Option FsEntry
  | e, [] => some e
  | .file _ _, _ :: _ => none
  | .dir es, s :: rest => match es.lookup s with
    | some e => e.resolve rest
    | none => none

/-- Resolve a relative path against a (possibly non-existent) root. -/
def resolveFs (root : Fs) (segs : List String) : Option FsEntry :=
  match root with
  | none => none
  | some e => e.resolve segs

/-- `existsSync(join(root, segs))`, where `trailing` records whether the path
string carried a trailing separator: on POSIX a trailing `/` resolves only if
the target is a directory. -/
def existsS (root : Fs) (segs : List String) (trailing : Bool) : Bool :=
  match resolveFs root segs with
  | some (.dir _) => true
  | some (.file _ _) => !trailing
  | none => false

/-- `statSync(join(root, segs)).isDirectory()` (false when nothing is there). -/
def isDirAt (root : Fs) (segs : List String) : Bool :=
  match resolveFs root segs with
  | some (.dir _) => true
  | _ => false

/-- `readFileSync(join(root, segs))` — the raw bytes; `none` when the call
throws (no such file, or the path is a directory). -/
def readBytes? (root : Fs) (segs : List String) : Option (List Nat) :=
  match resolveFs root segs with
  | some (.file b _) => some b
  | _ => none

/-- `readFileSync(join(root, segs), 'utf-8')` — the text; `none` when the
call throws. -/
def readText? (root : Fs) (segs : List String) : Option String :=
  match resolveFs root segs with
  | some (.file _ t) => t
  | _ => none

/-! ## `src/utils/diff.ts` — tree walker and path expander -/

/-- A declared path pattern: its segments and whether it was written with a
trailing path separator. -/
structure PathEntry where
  segs : List String
  trailing : Bool
deriving DecidableEq, Repr

mutual
/-- The body of `walkDir` from `src/utils/diff.ts`, specialised to a resolved
directory node: every entry that is a directory is recursed into, every file
contributes `relative(baseDir, fullPath)`, i.e. `pre ++ [name]`. -/
def walkEntry : FsEntry → List String → List (List String)
  | .file _ _, _ => []
  | .dir es, pre => walkEntries es pre

def walkEntries : FsEntries → List String → List (List String)
  | .nil, _ => []
  | .cons n (.file _ _) rest, pre => (pre ++ [n]) :: walkEntries rest pre
  | .cons n (.dir sub) rest, pre =>
    walkEntries sub (pre ++ [n]) ++ walkEntries rest pre
end

/-- `walkDir(join(root, segs), root)` from `src/utils/diff.ts`: returns `[]`
when the joined path does not exist (including a file reached through a
trailing separator), and otherwise collects all files beneath it relative to
the root. -/
def walkDir (root : Fs) (segs : List String) (trailing : Bool) :
    List (List String) :=
  if existsS root segs trailing then
    match resolveFs root segs with
    | some e => walkEntry e segs
    | none => []
  else []

/-- First-occurrence deduplication, the semantics of `[...new Set(files)]`:
an element is kept the first time it is seen and dropped afterwards. -/
def dedupFirst {α : Type} [DecidableEq α] (l : List α) : List α :=
  l.foldl (fun acc x => if x ∈ acc then acc else acc ++ [x]) []

/-- One iteration of the loop of `expandPaths`: a pattern ending in `/`, or
resolving to an existing directory, is expanded by `walkDir`; anything else is
kept as a literal single path. -/
def expandOne (freshDir : Fs) (p : PathEntry) : List (List String) :=
  if p.trailing || (existsS freshDir p.segs false && isDirAt freshDir p.segs) then
    walkDir freshDir p.segs p.trailing
  else [p.segs]

/-- `expandPaths(paths, freshDir)` from `src/utils/diff.ts`. -/
def expandPaths (paths : List PathEntry) (freshDir : Fs) : List (List String) :=
  dedupFirst (paths.flatMap (expandOne freshDir))

/-! ## `src/utils/diff.ts` — diff engine -/

/-- The `status` field of `FileDiff` (`src/types.ts`). -/
inductive DiffStatus where
  | added | modified | unchanged | removed
deriving DecidableEq, Repr

/-- The `category` field of `FileDiff` (`src/types.ts`); `protectedCat`
renders the source's `'protected'`. -/
inductive FileCategory where
  | safe | protectedCat
deriving DecidableEq, Repr

/-- `FileDiff` from `src/types.ts`. -/
structure FileDiff where
  path : List String
  status : DiffStatus
  category : FileCategory
deriving DecidableEq, Repr

/-- The loop body of `diffProjects`: each expanded path is skipped when absent
under the fresh root, classified `added` when absent under the current root,
and otherwise classified by an exact byte comparison of the two files.
`readFileSync` on a path that exists but is a directory throws (`EISDIR`),
which nothing in the source catches: this is the `.error` case. -/
def diffLoop (currentDir freshDir : Fs) :
    List (List String) → Except Unit (List FileDiff)
  | [] => .ok []
  | fp :: rest =>
    if existsS freshDir fp false = false then diffLoop currentDir freshDir rest
    else if existsS currentDir fp false = false then
      (diffLoop currentDir freshDir rest).map
        (fun ds => ⟨fp, .added, .safe⟩ :: ds)
    else
      match readBytes? currentDir fp, readBytes? freshDir fp with
      | some c, some f =>
        (diffLoop currentDir freshDir rest).map
          (fun ds => ⟨fp, if c = f then .unchanged else .modified, .safe⟩ :: ds)
      | _, _ => .error ()

/-- The file lists of an `UpgradeManifest` (`files.safe` / `files.protected`;
the latter is named `protectedFiles` because `protected` is a Lean keyword). -/
structure ManifestFiles where
  safe : List PathEntry
  protectedFiles : List PathEntry

/-- `diffProjects(currentDir, freshDir, manifest)` from `src/utils/diff.ts`,
applied to the expansion of `manifest.files.safe` against the fresh root. -/
def diffProjects (currentDir freshDir : Fs) (files : ManifestFiles) :
    Except Unit (List FileDiff) :=
  diffLoop currentDir freshDir (expandPaths files.safe freshDir)

/-- The record returned by `summarizeDiffs`. -/
structure DiffSummary where
  added : Nat
  modified : Nat
  unchanged : Nat
deriving DecidableEq, Repr

/-- `summarizeDiffs(diffs)` from `src/utils/diff.ts`: the loop bumps one of
three counters per entry; a `removed` status falls through the `switch`. -/
def summarizeDiffs (diffs : List FileDiff) : DiffSummary :=
  diffs.foldl
    (fun acc d =>
      match d.status with
      | .added => { acc with added := acc.added + 1 }
      | .modified => { acc with modified := acc.modified + 1 }
      | .unchanged => { acc with unchanged := acc.unchanged + 1 }
      | .removed => acc)
    ⟨0, 0, 0⟩

/-! ## `src/upgrade.ts` — version comparator -/

/-- `parseInt(p, 10)` on the characters of a segment: skip leading
whitespace, accept an optional sign, then take the longest digit prefix;
`none` models `NaN`. -/
def parseIntDigits (cs : List Char) : Option Int :=
  let digits := cs.takeWhile Char.isDigit
  if digits.isEmpty then none
  else some (digits.foldl (fun acc c => acc * 10 + (c.toNat - '0'.toNat)) 0)

/-- See `parseIntDigits`. -/
def parseIntJs (cs : List Char) : Option Int :=
  match cs.dropWhile Char.isWhitespace with
  | '+' :: rest => parseIntDigits rest
  | '-' :: rest => (parseIntDigits rest).map Int.neg
  | rest => parseIntDigits rest

/-- `v.split(/[-.]/)` on characters: split at every `.` or `-`;
the empty string yields one empty segment, like in JS. -/
def splitSegs : List Char → List (List Char)
  | [] => [[]]
  | c :: rest =>
    if c = '.' || c = '-' then [] :: splitSegs rest
    else match splitSegs rest with
      | seg :: segs => (c :: seg) :: segs
      | [] => [[c]]

/-- The `parse` closure of `isVersionLessThan` (`src/upgrade.ts`): strip one
optional leading `v` (`replace(/^v/, '')`), split on `.` and `-`, and map
each segment through `parseInt`, coercing `NaN` to 0. -/
def parseVersion (v : String) : List Int :=
  let cs := match v.data with
    | 'v' :: rest => rest
    | cs => cs
  (splitSegs cs).map (fun p => (parseIntJs p).getD 0)

/-- The tail of the comparison loop of `isVersionLessThan` once the parsed
components of `current` are exhausted: each remaining component of `required`
is compared against `a[i] ?? 0 = 0`. -/
def versLtNil : List Int → Bool
  | [] => false
  | b :: bs => if 0 < b then true else if b < 0 then false else versLtNil bs

/-- The comparison loop of `isVersionLessThan`: positional comparison with
missing components read as 0 (`a[i] ?? 0`, `b[i] ?? 0`). -/
def versLt : List Int → List Int → Bool
  | [], bs => versLtNil bs
  | a :: as, [] => if a < 0 then true else if 0 < a then false else versLt as []
  | a :: as, b :: bs => if a < b then true else if b < a then false else versLt as bs

/-- `isVersionLessThan(current, required)` from `src/upgrade.ts`. -/
def isVersionLessThan (current required : String) : Bool :=
  versLt (parseVersion current) (parseVersion required)

/-! Scratch checks (behavioural sanity against the JS source). -/
example : parseVersion "1.6.0" = [1, 6, 0] := by decide
example : parseVersion "v2.0.0-rc1" = [2, 0, 0, 0] := by decide
example : isVersionLessThan "1.6.0" "2.0.0" = true := by decide
example : isVersionLessThan "1.6.0" "1.6" = false := by decide
example : isVersionLessThan "1.6" "1.6.1" = true := by decide

/-- A small concrete fresh-template tree used by witnesses:
`src/lib/a.ts` and `src/lib/b.ts`. -/
def demoFreshFs : Fs :=
  some (.dir (.cons "src" (.dir (.cons "lib"
    (.dir (.cons "a.ts" (.file [1, 2] (some "aa"))
      (.cons "b.ts" (.file [3] (some "bb")) .nil))) .nil)) .nil))

/-- A small concrete current-project tree used by witnesses: `src/lib/a.ts`
has the same bytes as in `demoFreshFs`, `src/lib/b.ts` differs. -/
def demoCurrentFs : Fs :=
  some (.dir (.cons "src" (.dir (.cons "lib"
    (.dir (.cons "a.ts" (.file [1, 2] (some "aa"))
      (.cons "b.ts" (.file [9] (some "x")) .nil))) .nil)) .nil))

/-! ## Library lemmas about `dedupFirst` -/

theorem dedupFirst_go_nodup {α : Type} [DecidableEq α] :
    ∀ (l acc : List α), acc.Nodup →
      (l.foldl (fun acc x => if x ∈ acc then acc else acc ++ [x]) acc).Nodup
  | [], _, h => h
  | x :: l, acc, h => by
    simp only [List.foldl_cons]
    by_cases hx : x ∈ acc
    · simpa [hx] using dedupFirst_go_nodup l acc h
    · have : (acc ++ [x]).Nodup := by
        simp [List.nodup_append, h, hx]
      simpa [hx] using dedupFirst_go_nodup l (acc ++ [x]) this

/-- The result of `[...new Set(files)]` has no duplicates. -/
theorem dedupFirst_nodup {α : Type} [DecidableEq α] (l : List α) :
    (dedupFirst l).Nodup :=
  dedupFirst_go_nodup l [] List.nodup_nil

theorem dedupFirst_go_mem {α : Type} [DecidableEq α] :
    ∀ (l acc : List α) (y : α),
      (y ∈ l.foldl (fun acc x => if x ∈ acc then acc else acc ++ [x]) acc ↔
        y ∈ acc ∨ y ∈ l)
  | [], acc, y => by simp
  | x :: l, acc, y => by
    simp only [List.foldl_cons]
    by_cases hx : x ∈ acc
    · rw [if_pos hx, dedupFirst_go_mem l acc y]
      constructor
      · rintro (h | h)
        · exact Or.inl h
        · exact Or.inr (List.mem_cons_of_mem _ h)
      · rintro (h | h)
        · exact Or.inl h
        · rcases List.mem_cons.mp h with rfl | h
          · exact Or.inl hx
          · exact Or.inr h
    · rw [if_neg hx, dedupFirst_go_mem l (acc ++ [x]) y]
      simp [or_assoc]

/-- Deduplication does not change membership. -/
theorem mem_dedupFirst {α : Type} [DecidableEq α] (l : List α) (y : α) :
    y ∈ dedupFirst l ↔ y ∈ l := by
  rw [dedupFirst, dedupFirst_go_mem]; simp

/-! ## Claim C2 — `summarizeDiffs` tallies statuses -/

theorem summarize_go :
    ∀ (ds : List FileDiff) (acc : DiffSummary),
      ds.foldl
        (fun acc d =>
          match d.status with
          | .added => { acc with added := acc.added + 1 }
          | .modified => { acc with modified := acc.modified + 1 }
          | .unchanged => { acc with unchanged := acc.unchanged + 1 }
          | .removed => acc)
        acc
      = ⟨acc.added + (ds.map FileDiff.status).count .added,
         acc.modified + (ds.map FileDiff.status).count .modified,
         acc.unchanged + (ds.map FileDiff.status).count .unchanged⟩
  | [], acc => by simp
  | d :: ds, acc => by
    simp only [List.foldl_cons, List.map_cons, List.count_cons]
    cases h : d.status <;>
      simp [summarize_go ds, h, Nat.add_comm, Nat.add_assoc, Nat.add_left_comm]

/-- **C2.** `summarizeDiffs` maps a diff list to the per-status counts of
`added` / `modified` / `unchanged`.  Entries with status `removed` are counted
in no bucket, the empty list yields all-zero counts, and — since the counts
are computed from `ds.map FileDiff.status` alone — the result depends only on
the status fields, never on path or category. -/
theorem summarizeDiffs_counts (ds : List FileDiff) :
    summarizeDiffs ds
      = ⟨(ds.map FileDiff.status).count .added,
         (ds.map FileDiff.status).count .modified,
         (ds.map FileDiff.status).count .unchanged⟩
    ∧ summarizeDiffs [] = ⟨0, 0, 0⟩ := by
  constructor
  · rw [summarizeDiffs, summarize_go]; simp
  · rfl

/-! ## Claim C5 — expansion against a non-existent root -/

/-- **C5, counterexample.**  The claim says a non-existent root expands to an
empty set, but `expandPaths` pushes every pattern that is not directory-like
as a literal path without checking existence: a declared plain file survives
expansion even when the root does not exist. -/
theorem expandPaths_nonexistent_counterexample :
    expandPaths [⟨["tsconfig.json"], false⟩] (none : Fs) ≠ [] := by
  decide

theorem flatMap_expandOne_none (entries : List PathEntry) :
    entries.flatMap (expandOne (none : Fs))
      = (entries.filter (fun e => !e.trailing)).map PathEntry.segs := by
  induction entries with
  | nil => rfl
  | cons e rest ih =>
    cases htr : e.trailing <;>
      simp [expandOne, existsS, resolveFs, walkDir, htr, ih, List.filter_cons]

/-- **C5, amended.**  When the root directory does not exist, path expansion
raises no error; every entry written with a trailing separator expands to no
files (`walkDir` of a non-existent directory is empty), while each remaining
entry passes through literally as a single declared path. -/
theorem expandPaths_nonexistent (entries : List PathEntry) :
    expandPaths entries (none : Fs)
      = dedupFirst ((entries.filter (fun e => !e.trailing)).map PathEntry.segs)
    ∧ ∀ (segs : List String) (trailing : Bool),
        walkDir (none : Fs) segs trailing = [] := by
  refine ⟨?_, fun segs trailing => rfl⟩
  rw [expandPaths, flatMap_expandOne_none]

/-! ## Claim C4 — trailing-separator invariance and no duplicates -/

theorem expandOne_trailing_eq (freshDir : Fs) (segs : List String)
    (hdir : isDirAt freshDir segs = true) :
    expandOne freshDir ⟨segs, true⟩ = expandOne freshDir ⟨segs, false⟩ := by
  have hex : existsS freshDir segs false = true := by
    revert hdir
    unfold isDirAt existsS
    cases resolveFs freshDir segs with
    | none => simp
    | some e => cases e <;> simp
  have hex' : existsS freshDir segs true = true := by
    revert hdir
    unfold isDirAt existsS
    cases resolveFs freshDir segs with
    | none => simp
    | some e => cases e <;> simp
  simp [expandOne, walkDir, hdir, hex, hex']

/-- **C4.**  For an entry that denotes a directory under the fresh root,
`expandPaths` yields the same file list whether or not the entry is written
with a trailing path separator — in any surrounding list of declared entries;
and the result of `expandPaths` never contains a path twice. -/
theorem expandPaths_trailing_invariant_nodup (freshDir : Fs)
    (entries pre post : List PathEntry) (segs : List String)
    (hdir : isDirAt freshDir segs = true) :
    (expandPaths entries freshDir).Nodup
    ∧ expandPaths (pre ++ ⟨segs, true⟩ :: post) freshDir
        = expandPaths (pre ++ ⟨segs, false⟩ :: post) freshDir := by
  refine ⟨dedupFirst_nodup _, ?_⟩
  unfold expandPaths
  rw [List.flatMap_append, List.flatMap_append, List.flatMap_cons,
    List.flatMap_cons, expandOne_trailing_eq freshDir segs hdir]

/-- **C4, witness.**  A concrete instantiation: `src/lib` is a directory of
the fresh tree, and expanding it with and without the trailing separator
gives the same two files, with no duplicates even though a contained file is
also declared separately. -/
theorem expandPaths_trailing_invariant_nodup_witness :
    isDirAt demoFreshFs ["src", "lib"] = true
    ∧ (expandPaths [⟨["src", "lib"], true⟩, ⟨["src", "lib", "a.ts"], false⟩]
          demoFreshFs).Nodup
    ∧ expandPaths [⟨["src", "lib"], true⟩] demoFreshFs
        = expandPaths [⟨["src", "lib"], false⟩] demoFreshFs := by
  have h := expandPaths_trailing_invariant_nodup demoFreshFs
    [⟨["src", "lib"], true⟩, ⟨["src", "lib", "a.ts"], false⟩] [] []
    ["src", "lib"] (by decide)
  exact ⟨by decide, h.1, by simpa using h.2⟩

/-! ## Claim C3 — the version comparator -/

theorem versLtNil_iff : ∀ bs : List Int,
    (versLtNil bs = true ↔
      ∃ i, (0 : Int) < bs.getD i 0 ∧ ∀ j < i, bs.getD j 0 = 0)
  | [] => by simp [versLtNil, List.getD_nil]
  | b :: bs => by
    rw [versLtNil]
    by_cases h1 : 0 < b
    · simp only [if_pos h1, true_iff]
      exact ⟨0, by simpa using h1, fun j hj => absurd hj (Nat.not_lt_zero j)⟩
    · rw [if_neg h1]
      by_cases h2 : b < 0
      · simp only [if_pos h2, Bool.false_eq_true, false_iff]
        rintro ⟨i, hlt, hall⟩
        cases i with
        | zero => simp at hlt; omega
        | succ k =>
          have := hall 0 (Nat.succ_pos k)
          simp at this; omega
      · have hb : b = 0 := by omega
        rw [if_neg h2, versLtNil_iff bs]
        constructor
        · rintro ⟨i, hlt, hall⟩
          refine ⟨i + 1, by simpa using hlt, fun j hj => ?_⟩
          cases j with
          | zero => simpa using hb
          | succ k => simpa using hall k (by omega)
        · rintro ⟨i, hlt, hall⟩
          cases i with
          | zero => simp [hb] at hlt
          | succ k =>
            exact ⟨k, by simpa using hlt,
              fun j hj => by simpa using hall (j + 1) (by omega)⟩

theorem versCmp_head_iff (x y : Int) (as bs : List Int) :
    (∃ i, (x :: as).getD i 0 < (y :: bs).getD i 0 ∧
      ∀ j < i, (x :: as).getD j 0 = (y :: bs).getD j 0)
    ↔ (x < y ∨ (x = y ∧ ∃ i, as.getD i 0 < bs.getD i 0 ∧
        ∀ j < i, as.getD j 0 = bs.getD j 0)) := by
  constructor
  · rintro ⟨i, hlt, hall⟩
    cases i with
    | zero => exact Or.inl (by simpa using hlt)
    | succ k =>
      refine Or.inr ⟨by simpa using hall 0 (Nat.succ_pos k),
        k, by simpa using hlt, fun j hj => ?_⟩
      simpa using hall (j + 1) (by omega)
  · rintro (h | ⟨hxy, i, hlt, hall⟩)
    · exact ⟨0, by simpa using h, fun j hj => absurd hj (Nat.not_lt_zero j)⟩
    · refine ⟨i + 1, by simpa using hlt, fun j hj => ?_⟩
      cases j with
      | zero => simpa using hxy
      | succ k => simpa using hall k (by omega)

theorem versLt_iff : ∀ a b : List Int,
    (versLt a b = true ↔
      ∃ i, a.getD i 0 < b.getD i 0 ∧ ∀ j < i, a.getD j 0 = b.getD j 0)
  | [], bs => by
    rw [show versLt [] bs = versLtNil bs from rfl, versLtNil_iff bs]
    simp [List.getD_nil, eq_comm]
  | x :: as, [] => by
    have h0 : ∀ i : Nat, ([] : List Int).getD i 0 = ([0] : List Int).getD i 0 :=
      fun i => by cases i <;> simp
    rw [show versLt (x :: as) []
      = (if x < 0 then true else if 0 < x then false else versLt as []) from rfl]
    simp only [h0]
    rw [versCmp_head_iff x 0 as [], ← versLt_iff as []]
    by_cases h1 : x < 0
    · simp [h1]
    · by_cases h2 : 0 < x
      · simp [h1, h2, show x ≠ 0 by omega]
      · have hx : x = 0 := by omega
        simp [h1, h2, hx]
  | x :: as, y :: bs => by
    rw [show versLt (x :: as) (y :: bs)
      = (if x < y then true else if y < x then false else versLt as bs) from rfl]
    rw [versCmp_head_iff x y as bs, ← versLt_iff as bs]
    by_cases h1 : x < y
    · simp [h1]
    · by_cases h2 : y < x
      · simp [h1, h2, show x ≠ y by omega]
      · have hxy : x = y := by omega
        simp [h1, h2, hxy]

/-- **C3.**  `isVersionLessThan` parses both strings with the `parse` closure
(one optional leading `v` stripped, split on `.` and `-`, `parseInt` with
`NaN ↦ 0`), conceptually zero-pads the shorter list (`getD ⬝ 0`), and returns
true exactly when at the first differing position `current`'s component is
strictly smaller; it returns false when all compared positions agree, and in
particular it is irreflexive. -/
theorem isVersionLessThan_characterization (current required : String) :
    (isVersionLessThan current required = true ↔
      ∃ i, (parseVersion current).getD i 0 < (parseVersion required).getD i 0 ∧
        ∀ j < i,
          (parseVersion current).getD j 0 = (parseVersion required).getD j 0)
    ∧ ((∀ i, (parseVersion current).getD i 0 = (parseVersion required).getD i 0)
        → isVersionLessThan current required = false)
    ∧ isVersionLessThan current current = false := by
  refine ⟨versLt_iff _ _, ?_, ?_⟩
  · intro hall
    cases hb : isVersionLessThan current required with
    | false => rfl
    | true =>
      rcases (versLt_iff _ _).mp hb with ⟨i, hlt, _⟩
      rw [hall i] at hlt
      exact absurd hlt (lt_irrefl _)
  · cases hb : isVersionLessThan current current with
    | false => rfl
    | true =>
      rcases (versLt_iff _ _).mp hb with ⟨i, hlt, _⟩
      exact absurd hlt (lt_irrefl _)

/-- **C3, witness.**  Concrete instantiations: `1.2.3 < 1.2.10` via the first
differing position, `1.0` equal to `v1.0.0` under zero-padding (hence not
less), and irreflexivity at `1.2.3`. -/
theorem isVersionLessThan_characterization_witness :
    isVersionLessThan "1.2.3" "1.2.10" = true
    ∧ isVersionLessThan "1.0" "v1.0.0" = false
    ∧ isVersionLessThan "1.2.3" "1.2.3" = false := by
  refine ⟨?_, ?_, ?_⟩
  · exact (isVersionLessThan_characterization "1.2.3" "1.2.10").1.mpr
      ⟨2, by decide, by decide⟩
  · refine (isVersionLessThan_characterization "1.0" "v1.0.0").2.1 (fun i => ?_)
    have e1 : parseVersion "1.0" = [1, 0] := by decide
    have e2 : parseVersion "v1.0.0" = [1, 0, 0] := by decide
    rw [e1, e2]
    match i with
    | 0 => rfl
    | 1 => rfl
    | 2 => rfl
    | n + 3 => simp [List.getD]
  · exact (isVersionLessThan_characterization "1.2.3" "junk").2.2

/-! ## Claim C1 — classification of safe files -/

/-- Well-formedness of a possibly non-existent root. -/
def wfFs : Fs → Bool
  | none => true
  | some e => e.wfB

theorem wfB_file (b : List Nat) (t : Option String) :
    (FsEntry.file b t).wfB = true := by
  rw [FsEntry.wfB.eq_def]

theorem wfB_dir (es : FsEntries) : (FsEntry.dir es).wfB = es.wfB := by
  rw [FsEntry.wfB.eq_def]

theorem walkEntry_file (b : List Nat) (t : Option String) (pre : List String) :
    walkEntry (.file b t) pre = [] := by
  rw [walkEntry.eq_def]

theorem walkEntry_dir (es : FsEntries) (pre : List String) :
    walkEntry (.dir es) pre = walkEntries es pre := by
  rw [walkEntry.eq_def]

theorem FsEntries.lookup_wf : ∀ (es : FsEntries) (s : String) (c : FsEntry),
    es.wfB = true → es.lookup s = some c → c.wfB = true
  | .nil, _, _, _, h => by simp [FsEntries.lookup] at h
  | .cons k e rest, s, c, hw, h => by
    rw [FsEntries.lookup] at h
    have hw' : e.wfB = true ∧ rest.wfB = true := by
      rw [FsEntries.wfB] at hw
      simp only [Bool.and_eq_true] at hw
      exact ⟨hw.1.2, hw.2⟩
    by_cases hk : k = s
    · rw [if_pos hk] at h
      cases h
      exact hw'.1
    · rw [if_neg hk] at h
      exact FsEntries.lookup_wf rest s c hw'.2 h

theorem wf_resolve : ∀ (segs : List String) (e e' : FsEntry),
    e.wfB = true → e.resolve segs = some e' → e'.wfB = true
  | [], e, e', hw, h => by
    rw [FsEntry.resolve] at h
    cases h
    exact hw
  | s :: rest, e, e', hw, h => by
    cases e with
    | file b t => simp [FsEntry.resolve] at h
    | dir es =>
      rw [FsEntry.resolve] at h
      cases hc : es.lookup s with
      | none => rw [hc] at h; cases h
      | some c =>
        rw [hc] at h
        have hwes : es.wfB = true := by rwa [wfB_dir] at hw
        exact wf_resolve rest c e' (FsEntries.lookup_wf es s c hwes hc) h

theorem resolve_append : ∀ (xs ys : List String) (e : FsEntry),
    e.resolve (xs ++ ys) = (e.resolve xs).bind (fun c => c.resolve ys)
  | [], ys, e => by simp [FsEntry.resolve]
  | x :: xs, ys, e => by
    cases e with
    | file b t => simp [FsEntry.resolve]
    | dir es =>
      rw [List.cons_append]
      cases hc : es.lookup x with
      | none => simp [FsEntry.resolve, hc]
      | some c => simp [FsEntry.resolve, hc, resolve_append xs ys c]

mutual
theorem walkEntry_shift : ∀ (e : FsEntry) (pre : List String),
    walkEntry e pre = (walkEntry e []).map (fun fp => pre ++ fp)
  | .file b t, pre => by simp [walkEntry_file]
  | .dir es, pre => by
    rw [walkEntry_dir, walkEntry_dir, walkEntries_shift es pre]

theorem walkEntries_shift : ∀ (es : FsEntries) (pre : List String),
    walkEntries es pre = (walkEntries es []).map (fun fp => pre ++ fp)
  | .nil, pre => by simp [walkEntries]
  | .cons n (.file b t) rest, pre => by
    rw [walkEntries, walkEntries, walkEntries_shift rest pre]
    simp
  | .cons n (.dir sub) rest, pre => by
    rw [walkEntries, walkEntries, walkEntries_shift sub (pre ++ [n]),
      walkEntries_shift sub ([] ++ [n]), walkEntries_shift rest pre]
    simp [Function.comp_def]
end

theorem walkEntries_head : ∀ (es : FsEntries) (fp : List String),
    fp ∈ walkEntries es [] → ∃ m fp', fp = m :: fp' ∧ m ∈ es.names
  | .nil, fp, h => by simp [walkEntries] at h
  | .cons n (.file b t) rest, fp, h => by
    rw [walkEntries] at h
    rcases List.mem_cons.mp h with rfl | h
    · exact ⟨n, [], rfl, by simp [FsEntries.names]⟩
    · rcases walkEntries_head rest fp h with ⟨m, fp', rfl, hm⟩
      exact ⟨m, fp', rfl, by simp [FsEntries.names, hm]⟩
  | .cons n (.dir sub) rest, fp, h => by
    rw [walkEntries] at h
    rcases List.mem_append.mp h with h | h
    · rw [walkEntries_shift sub ([] ++ [n])] at h
      rcases List.mem_map.mp h with ⟨fp', _, rfl⟩
      exact ⟨n, fp', rfl, by simp [FsEntries.names]⟩
    · rcases walkEntries_head rest fp h with ⟨m, fp', rfl, hm⟩
      exact ⟨m, fp', rfl, by simp [FsEntries.names, hm]⟩

theorem names_contains_iff (es : FsEntries) (n : String) :
    (es.names.contains n = true) ↔ n ∈ es.names := by
  simp [List.contains]

mutual
theorem walkEntry_resolve_file : ∀ (e : FsEntry), e.wfB = true →
    ∀ fp ∈ walkEntry e [], ∃ b t, e.resolve fp = some (.file b t)
  | .file b t, _, fp, h => by simp [walkEntry_file] at h
  | .dir es, hw, fp, h => by
    rw [walkEntry_dir] at h
    exact walkEntries_resolve_file es (by rwa [wfB_dir] at hw) fp h

theorem walkEntries_resolve_file : ∀ (es : FsEntries), es.wfB = true →
    ∀ fp ∈ walkEntries es [],
      ∃ b t, (FsEntry.dir es).resolve fp = some (.file b t)
  | .nil, _, fp, h => by simp [walkEntries] at h
  | .cons n e rest, hw, fp, h => by
    have hw3 : (¬ n ∈ rest.names) ∧ e.wfB = true ∧ rest.wfB = true := by
      rw [FsEntries.wfB] at hw
      simp only [Bool.and_eq_true, Bool.not_eq_true'] at hw
      refine ⟨fun hmem => ?_, hw.1.2, hw.2⟩
      have hc := (names_contains_iff rest n).mpr hmem
      rw [hw.1.1] at hc
      exact Bool.noConfusion hc
    cases e with
    | file b t =>
      rw [walkEntries] at h
      rcases List.mem_cons.mp h with rfl | h
      · refine ⟨b, t, ?_⟩
        simp [FsEntry.resolve, FsEntries.lookup]
      · rcases walkEntries_head rest _ h with ⟨m, fp', rfl, hm⟩
        have hmn : ¬ n = m := fun hnm => hw3.1 (hnm ▸ hm)
        rcases walkEntries_resolve_file rest hw3.2.2 _ h with ⟨b', t', hr⟩
        refine ⟨b', t', ?_⟩
        rw [FsEntry.resolve] at hr ⊢
        rwa [FsEntries.lookup, if_neg hmn]
    | dir sub =>
      rw [walkEntries] at h
      rcases List.mem_append.mp h with h | h
      · rw [walkEntries_shift sub ([] ++ [n])] at h
        rcases List.mem_map.mp h with ⟨fp', hfp', rfl⟩
        have hsub : ∃ b t, (FsEntry.dir sub).resolve fp' = some (.file b t) := by
          have h21 := hw3.2.1
          rw [wfB_dir] at h21
          exact walkEntries_resolve_file sub h21 fp' hfp'
        rcases hsub with ⟨b, t, hr⟩
        refine ⟨b, t, ?_⟩
        simp only [List.nil_append, List.singleton_append]
        rw [FsEntry.resolve, FsEntries.lookup, if_pos rfl]
        exact hr
      · rcases walkEntries_head rest _ h with ⟨m, fp', rfl, hm⟩
        have hmn : ¬ n = m := fun hnm => hw3.1 (hnm ▸ hm)
        rcases walkEntries_resolve_file rest hw3.2.2 _ h with ⟨b', t', hr⟩
        refine ⟨b', t', ?_⟩
        rw [FsEntry.resolve] at hr ⊢
        rwa [FsEntries.lookup, if_neg hmn]
end

/-- Every path produced by `expandPaths` that exists under the (well-formed)
fresh root resolves to a file there, never to a directory: walked paths are
files by construction, and a literal entry that had resolved to a directory
would have been expanded instead. -/
theorem expandPaths_fresh_file (freshDir : Fs) (paths : List PathEntry)
    (hwf : wfFs freshDir = true) (fp : List String)
    (hmem : fp ∈ expandPaths paths freshDir)
    (hex : existsS freshDir fp false = true) :
    ∃ b t, resolveFs freshDir fp = some (.file b t) := by
  rw [expandPaths, mem_dedupFirst] at hmem
  rcases List.mem_flatMap.mp hmem with ⟨p, _, hfp⟩
  rw [expandOne] at hfp
  split at hfp
  · -- expanded through walkDir
    rw [walkDir] at hfp
    split at hfp
    swap
    · simp at hfp
    split at hfp
    swap
    · simp at hfp
    rename_i e hres
    · cases freshDir with
      | none => simp [resolveFs] at hres
      | some root =>
        rw [walkEntry_shift e p.segs] at hfp
        rcases List.mem_map.mp hfp with ⟨fp', hfp', rfl⟩
        have hwe : e.wfB = true :=
          wf_resolve p.segs root e (by rwa [wfFs] at hwf) (by rwa [resolveFs] at hres)
        rcases walkEntry_resolve_file e hwe fp' hfp' with ⟨b, t, hr⟩
        refine ⟨b, t, ?_⟩
        rw [resolveFs, resolve_append, ← resolveFs, hres]
        cases e with
        | file b0 t0 => simp [walkEntry_file] at hfp'
        | dir sub => exact hr
  · -- literal entry
    rcases List.mem_singleton.mp hfp with rfl
    rename_i hcond
    revert hex hcond
    unfold existsS isDirAt
    cases resolveFs freshDir p.segs with
    | none => simp
    | some e => cases e <;> simp

/-- The classification rule exactly as the specification states it: skip a
path absent under the fresh root, classify `added` when absent under the
current root, otherwise `unchanged`/`modified` by full-byte equality; every
produced entry is tagged `safe`.  (Claim-side definition, to be compared with
the source-derived `diffProjects`.) -/
def classifyRuleSpec (currentDir freshDir : Fs) (fp : List String) :
    Option FileDiff :=
  if existsS freshDir fp false = false then none
  else if existsS currentDir fp false = false then some ⟨fp, .added, .safe⟩
  else if readBytes? currentDir fp = readBytes? freshDir fp then
    some ⟨fp, .unchanged, .safe⟩
  else some ⟨fp, .modified, .safe⟩

theorem diffLoop_ok (currentDir freshDir : Fs) :
    ∀ l : List (List String),
      (∀ fp ∈ l, existsS freshDir fp false = true →
        ∃ b t, resolveFs freshDir fp = some (.file b t)) →
      (∀ fp ∈ l, existsS currentDir fp false = true →
        isDirAt currentDir fp = false) →
      diffLoop currentDir freshDir l
        = .ok (l.filterMap (classifyRuleSpec currentDir freshDir))
  | [], _, _ => rfl
  | fp :: rest, hf, hc => by
    have ihf := fun q hq => hf q (List.mem_cons_of_mem fp hq)
    have ihc := fun q hq => hc q (List.mem_cons_of_mem fp hq)
    have ih := diffLoop_ok currentDir freshDir rest ihf ihc
    rw [diffLoop, List.filterMap_cons]
    cases hex : existsS freshDir fp false with
    | false =>
      rw [if_pos rfl]
      rw [show classifyRuleSpec currentDir freshDir fp = none by
        rw [classifyRuleSpec, if_pos hex]]
      exact ih
    | true =>
      rw [if_neg (by simp)]
      rcases hf fp (List.mem_cons_self fp rest) hex with ⟨b, t, hres⟩
      cases hexc : existsS currentDir fp false with
      | false =>
        rw [if_pos rfl, ih]
        rw [show classifyRuleSpec currentDir freshDir fp
          = some ⟨fp, .added, .safe⟩ by
          rw [classifyRuleSpec, if_neg (by simp [hex]), if_pos hexc]]
        rfl
      | true =>
        rw [if_neg (by simp)]
        have hdir : isDirAt currentDir fp = false :=
          hc fp (List.mem_cons_self fp rest) hexc
        have hcull : ∃ cb ct, resolveFs currentDir fp = some (.file cb ct) := by
          revert hexc hdir
          unfold existsS isDirAt
          cases resolveFs currentDir fp with
          | none => simp
          | some e => cases e <;> simp
        rcases hcull with ⟨cb, ct, hresc⟩
        have hrbc : readBytes? currentDir fp = some cb := by
          rw [readBytes?, hresc]
        have hrbf : readBytes? freshDir fp = some b := by
          rw [readBytes?, hres]
        rw [hrbc, hrbf, ih]
        rw [show classifyRuleSpec currentDir freshDir fp
          = some ⟨fp, if cb = b then .unchanged else .modified, .safe⟩ by
          rw [classifyRuleSpec, if_neg (by simp [hex]), if_neg (by simp [hexc]),
            hrbc, hrbf]
          by_cases hcb : cb = b
          · rw [if_pos (by rw [hcb]), if_pos hcb]
          · rw [if_neg (by simpa using hcb), if_neg hcb]]
        rfl

/-- **C1.**  For every path in the expansion of `manifest.files.safe` against
the fresh root, `diffProjects` emits exactly one `FileDiff` following the
specified rule (skip when absent under the fresh root; `added` when absent
under the current root; `unchanged` on byte-equal contents, else `modified`);
the expansion has no duplicate paths, every emitted entry has category
`safe`, and no emitted entry has status `removed`.  The hypotheses state the
claim's presuppositions: the fresh tree is a real directory tree (no
duplicated names), and a declared safe path that exists in the current
project is a file there (otherwise `readFileSync` would throw). -/
theorem diffProjects_classification (currentDir freshDir : Fs)
    (files : ManifestFiles) (hwf : wfFs freshDir = true)
    (hcur : ∀ fp ∈ expandPaths files.safe freshDir,
      existsS currentDir fp false = true → isDirAt currentDir fp = false) :
    diffProjects currentDir freshDir files
      = .ok ((expandPaths files.safe freshDir).filterMap
          (classifyRuleSpec currentDir freshDir))
    ∧ (expandPaths files.safe freshDir).Nodup
    ∧ ∀ d ∈ (expandPaths files.safe freshDir).filterMap
          (classifyRuleSpec currentDir freshDir),
        d.category = .safe ∧ d.status ≠ .removed := by
  refine ⟨?_, dedupFirst_nodup _, ?_⟩
  · exact diffLoop_ok currentDir freshDir _
      (fun fp hm => expandPaths_fresh_file freshDir files.safe hwf fp hm) hcur
  · intro d hd
    rcases List.mem_filterMap.mp hd with ⟨fp, _, heq⟩
    rw [classifyRuleSpec] at heq
    split at heq
    · cases heq
    · split at heq
      · cases heq; exact ⟨rfl, by simp⟩
      · split at heq <;> (cases heq; exact ⟨rfl, by simp⟩)

/-- A fresh tree for the C1 witness: `src/lib/{a.ts,b.ts,c.ts}`. -/
def witFreshC1 : Fs :=
  some (.dir (.cons "src" (.dir (.cons "lib"
    (.dir (.cons "a.ts" (.file [1, 2] (some "aa"))
      (.cons "b.ts" (.file [3] (some "bb"))
        (.cons "c.ts" (.file [7] (some "cc")) .nil)))) .nil)) .nil))

/-- A current tree for the C1 witness: `a.ts` byte-identical, `b.ts`
differing, `c.ts` absent. -/
def witCurrentC1 : Fs :=
  some (.dir (.cons "src" (.dir (.cons "lib"
    (.dir (.cons "a.ts" (.file [1, 2] (some "aa"))
      (.cons "b.ts" (.file [9] (some "x")) .nil))) .nil)) .nil))

/-- **C1, witness.**  A concrete safe list containing a directory pattern and
a path the template lacks: the missing path is skipped, `a.ts` is unchanged,
`b.ts` is modified, `c.ts` is added, everything `safe`, nothing `removed`. -/
theorem diffProjects_classification_witness :
    wfFs witFreshC1 = true
    ∧ diffProjects witCurrentC1 witFreshC1
        ⟨[⟨["src", "lib"], true⟩, ⟨["ghost.ts"], false⟩], []⟩
      = .ok [⟨["src", "lib", "a.ts"], .unchanged, .safe⟩,
             ⟨["src", "lib", "b.ts"], .modified, .safe⟩,
             ⟨["src", "lib", "c.ts"], .added, .safe⟩] := by
  refine ⟨by decide, ?_⟩
  rw [(diffProjects_classification witCurrentC1 witFreshC1
    ⟨[⟨["src", "lib"], true⟩, ⟨["ghost.ts"], false⟩], []⟩
    (by decide) (by decide)).1]
  exact congrArg Except.ok (by decide)

/-! ## `src/upgrade.ts` — dependency merger -/

/-- A dependency section of `package.json`: a JS object mapping package
names to version strings, in insertion order. -/
abbrev Deps := List (String × String)

/-- The shape of a parsed `package.json` relevant to the merger: the two
dependency sections (an absent section and a present-but-empty one serialize
differently, hence `Option`), and all remaining top-level fields, which the
merger never touches. -/
structure PackageJson where
  dependencies : Option Deps
  devDependencies : Option Deps
  rest : List (String × String)
deriving DecidableEq, Repr

/-- The `dependencies` block of an `UpgradeManifest` (`src/types.ts`):
`update` and `add` are JS objects, `remove` is an array of names. -/
structure DepChanges where
  update : List (String × String)
  remove : List String
  add : List (String × String)
deriving DecidableEq, Repr

/-- `pkg.section?.[name] !== undefined`. -/
def depHas (d? : Option Deps) (n : String) : Bool :=
  match d? with
  | some d => (getA d n).isSome
  | none => false

/-- Reading `pkg.section?.[name]` as a value. -/
def sectGet (d? : Option Deps) (n : String) : Option String :=
  match d? with
  | some d => getA d n
  | none => none

/-- One iteration of the `update` loop of `mergePackageJsonDeps`: write into
whichever section already declares the package, defaulting to `dependencies`
(materialising it with `pkg.dependencies = {}` if absent). -/
def applyUpdate (pkg : PackageJson) (n v : String) : PackageJson :=
  if depHas pkg.dependencies n then
    { pkg with dependencies := pkg.dependencies.map (fun d => setA d n v) }
  else if depHas pkg.devDependencies n then
    { pkg with devDependencies := pkg.devDependencies.map (fun d => setA d n v) }
  else
    { pkg with dependencies := some (setA (pkg.dependencies.getD []) n v) }

/-- One iteration of the `remove` loop: delete the name from either section
where it is present. -/
def applyRemove (pkg : PackageJson) (n : String) : PackageJson :=
  let pkg1 :=
    if depHas pkg.dependencies n then
      { pkg with dependencies := pkg.dependencies.map (fun d => delA d n) }
    else pkg
  if depHas pkg1.devDependencies n then
    { pkg1 with devDependencies := pkg1.devDependencies.map (fun d => delA d n) }
  else pkg1

/-- One iteration of the `add` loop: insert into `dependencies`
unconditionally (materialising the section if absent). -/
def applyAdd (pkg : PackageJson) (n v : String) : PackageJson :=
  { pkg with dependencies := some (setA (pkg.dependencies.getD []) n v) }

/-- The `update` loop. -/
def updFold (l : List (String × String)) (pkg : PackageJson) : PackageJson :=
  l.foldl (fun p nv => applyUpdate p nv.1 nv.2) pkg

/-- The `remove` loop. -/
def remFold (l : List String) (pkg : PackageJson) : PackageJson :=
  l.foldl applyRemove pkg

/-- The `add` loop. -/
def addFold (l : List (String × String)) (pkg : PackageJson) : PackageJson :=
  l.foldl (fun p nv => applyAdd p nv.1 nv.2) pkg

/-- The body of `mergePackageJsonDeps` (`src/upgrade.ts`): the three loops in
source order — update, then remove, then add. -/
def mergeDepsCore (pkg : PackageJson) (dc : DepChanges) : PackageJson :=
  addFold dc.add (remFold dc.remove (updFold dc.update pkg))

/-- `mergePackageJsonDeps(targetDir, manifest)`: a silent no-op when no
`package.json` exists at the target. -/
def mergePackageJsonDeps (pkg? : Option PackageJson) (dc : DepChanges) :
    Option PackageJson :=
  match pkg? with
  | none => none
  | some pkg => some (mergeDepsCore pkg dc)

/-! ## Claim C10 — the merger's frame -/

theorem applyUpdate_rest (pkg : PackageJson) (n v : String) :
    (applyUpdate pkg n v).rest = pkg.rest := by
  rw [applyUpdate]; split_ifs <;> rfl

theorem applyRemove_rest (pkg : PackageJson) (n : String) :
    (applyRemove pkg n).rest = pkg.rest := by
  rw [applyRemove]; split_ifs <;> rfl

theorem applyAdd_rest (pkg : PackageJson) (n v : String) :
    (applyAdd pkg n v).rest = pkg.rest := rfl

theorem updFold_rest : ∀ (l : List (String × String)) (pkg : PackageJson),
    (updFold l pkg).rest = pkg.rest
  | [], _ => rfl
  | nv :: l, pkg => by
    rw [updFold, List.foldl_cons, ← updFold, updFold_rest l, applyUpdate_rest]

theorem remFold_rest : ∀ (l : List String) (pkg : PackageJson),
    (remFold l pkg).rest = pkg.rest
  | [], _ => rfl
  | n :: l, pkg => by
    rw [remFold, List.foldl_cons, ← remFold, remFold_rest l, applyRemove_rest]

theorem addFold_rest : ∀ (l : List (String × String)) (pkg : PackageJson),
    (addFold l pkg).rest = pkg.rest
  | [], _ => rfl
  | nv :: l, pkg => by
    rw [addFold, List.foldl_cons, ← addFold, addFold_rest l, applyAdd_rest]

/-- **C10.**  The merger modifies at most the `dependencies` and
`devDependencies` sections: every other top-level field of the descriptor is
unchanged by the merge, and when no `package.json` exists the merge changes
nothing at all. -/
theorem mergePackageJsonDeps_frame (dc : DepChanges) :
    mergePackageJsonDeps none dc = none
    ∧ ∀ pkg : PackageJson,
        (mergeDepsCore pkg dc).rest = pkg.rest
        ∧ mergePackageJsonDeps (some pkg) dc = some (mergeDepsCore pkg dc) := by
  refine ⟨rfl, fun pkg => ⟨?_, rfl⟩⟩
  rw [mergeDepsCore, addFold_rest, remFold_rest, updFold_rest]

/-! ## Claim C6 — association-list groundwork -/

theorem getA_setA_self {β : Type} : ∀ (l : List (String × β)) (n : String) (v : β),
    getA (setA l n v) n = some v
  | [], n, v => by simp [setA, getA]
  | (k, w) :: rest, n, v => by
    rw [setA]
    by_cases hk : k = n
    · rw [if_pos hk, getA, if_pos hk]
    · rw [if_neg hk, getA, if_neg hk, getA_setA_self rest]

theorem getA_setA_ne {β : Type} : ∀ (l : List (String × β)) (n m : String) (v : β),
    m ≠ n → getA (setA l n v) m = getA l m
  | [], n, m, v, h => by
    simp [setA, getA, Ne.symm h]
  | (k, w) :: rest, n, m, v, h => by
    rw [setA]
    by_cases hk : k = n
    · rw [if_pos hk, getA, getA]
      by_cases hkm : k = m
      · exact absurd (hkm ▸ hk) h
      · rw [if_neg hkm, if_neg hkm]
    · rw [if_neg hk, getA, getA]
      by_cases hkm : k = m
      · rw [if_pos hkm, if_pos hkm]
      · rw [if_neg hkm, if_neg hkm, getA_setA_ne rest n m v h]

theorem setA_same {β : Type} : ∀ (l : List (String × β)) (n : String) (v : β),
    getA l n = some v → setA l n v = l
  | [], n, v, h => by simp [getA] at h
  | (k, w) :: rest, n, v, h => by
    rw [getA] at h
    rw [setA]
    by_cases hk : k = n
    · rw [if_pos hk] at h
      rw [if_pos hk]
      cases h
      rfl
    · rw [if_neg hk] at h
      rw [if_neg hk, setA_same rest n v h]

theorem keysA_setA {β : Type} : ∀ (l : List (String × β)) (n : String) (v : β),
    keysA (setA l n v) = if n ∈ keysA l then keysA l else keysA l ++ [n]
  | [], n, v => by simp [setA, keysA]
  | (k, w) :: rest, n, v => by
    by_cases hk : k = n
    · subst hk
      rw [setA, if_pos rfl]
      simp [keysA]
    · rw [setA, if_neg hk]
      have hrec := keysA_setA rest n v
      simp only [keysA, List.map_cons] at hrec ⊢
      rw [hrec]
      by_cases hn : n ∈ List.map Prod.fst rest
      · rw [if_pos hn, if_pos (List.mem_cons_of_mem _ hn)]
      · rw [if_neg hn, if_neg (by
          intro hmem
          rcases List.mem_cons.mp hmem with h | h
          · exact hk h.symm
          · exact hn h)]
        rfl

theorem getA_isSome_iff_mem {β : Type} : ∀ (l : List (String × β)) (n : String),
    ((getA l n).isSome = true) ↔ n ∈ keysA l
  | [], n => by simp [getA, keysA]
  | (k, w) :: rest, n => by
    rw [getA]
    by_cases hk : k = n
    · subst hk
      simp [keysA]
    · rw [if_neg hk, getA_isSome_iff_mem rest n]
      simp only [keysA, List.map_cons, List.mem_cons]
      constructor
      · exact fun h => Or.inr h
      · rintro (h | h)
        · exact absurd h.symm hk
        · exact h

theorem getA_eq_none_iff {β : Type} (l : List (String × β)) (n : String) :
    getA l n = none ↔ ¬ n ∈ keysA l := by
  rw [← getA_isSome_iff_mem]
  cases getA l n <;> simp

theorem getA_delA_self {β : Type} (l : List (String × β)) (n : String) :
    getA (delA l n) n = none := by
  rw [getA_eq_none_iff]
  intro hmem
  rw [keysA, delA] at hmem
  rcases List.mem_map.mp hmem with ⟨kv, hkv, rfl⟩
  rcases List.mem_filter.mp hkv with ⟨_, hne⟩
  simp at hne

theorem getA_delA_ne {β : Type} : ∀ (l : List (String × β)) (n m : String),
    m ≠ n → getA (delA l n) m = getA l m
  | [], n, m, h => rfl
  | (k, w) :: rest, n, m, h => by
    rw [delA, List.filter_cons]
    by_cases hk : k = n
    · rw [if_neg (by simp [hk]), getA, if_neg (hk ▸ fun hx => h hx.symm)]
      exact getA_delA_ne rest n m h
    · rw [if_pos (by simp [hk]), getA, getA]
      by_cases hkm : k = m
      · rw [if_pos hkm, if_pos hkm]
      · rw [if_neg hkm, if_neg hkm]
        exact getA_delA_ne rest n m h

theorem keysA_delA_sublist {β : Type} (l : List (String × β)) (n : String) :
    (keysA (delA l n)).Sublist (keysA l) :=
  List.Sublist.map Prod.fst (List.filter_sublist l)

theorem mem_getA_of_nodup {β : Type} : ∀ (l : List (String × β)) (n : String) (v : β),
    (keysA l).Nodup → (n, v) ∈ l → getA l n = some v
  | [], n, v, _, h => by simp at h
  | (k, w) :: rest, n, v, hnd, h => by
    rw [keysA, List.map_cons, List.nodup_cons] at hnd
    rw [getA]
    rcases List.mem_cons.mp h with heq | h
    · cases heq
      rw [if_pos rfl]
    · have hk : ¬ k = n := by
        intro hkn
        apply hnd.1
        show (k, w).1 ∈ _
        rw [show (k, w).1 = n from hkn]
        simpa using List.mem_map_of_mem Prod.fst h
      rw [if_neg hk]
      exact mem_getA_of_nodup rest n v hnd.2 h

theorem setA_eq_map_of_nodup {β : Type} :
    ∀ (l : List (String × β)) (n : String) (v : β),
      (keysA l).Nodup → n ∈ keysA l →
      setA l n v = l.map (fun kv => if kv.1 = n then (kv.1, v) else kv)
  | [], n, v, _, hmem => by simp [keysA] at hmem
  | (k, w) :: rest, n, v, hnd, hmem => by
    rw [keysA, List.map_cons, List.nodup_cons] at hnd
    rw [List.map_cons]
    by_cases hk : k = n
    · subst hk
      rw [setA, if_pos rfl]
      have hrest : rest.map (fun kv => if kv.1 = k then (kv.1, v) else kv) = rest := by
        refine (List.map_congr_left ?_).trans (List.map_id rest)
        intro kv hkv
        have hne : ¬ kv.1 = k := by
          intro h1
          apply hnd.1
          show (k, w).1 ∈ _
          simp only [show ((k, w).1 : String) = k from rfl, ← h1]
          simpa using List.mem_map_of_mem Prod.fst hkv
        simp [hne]
      rw [hrest]
      simp
    · rw [setA, if_neg hk]
      have hmem2 : n ∈ k :: keysA rest := hmem
      have hmem3 : n ∈ keysA rest := by
        rcases List.mem_cons.mp hmem2 with h | h
        · exact absurd h.symm hk
        · exact h
      rw [setA_eq_map_of_nodup rest n v hnd.2 hmem3]
      simp [hk]

/-! ## Claim C6 — counterexample -/

/-- A descriptor with no `dependencies` section and `x` in
`devDependencies`. -/
def cexPkg : PackageJson := ⟨none, some [("x", "1")], [("name", "demo")]⟩

/-- A manifest block that both updates and removes `x`. -/
def cexDc : DepChanges := ⟨[("x", "2")], ["x"], []⟩

/-- **C6, counterexample.**  The merge is not idempotent as claimed: with a
name listed in both `update` and `remove` and a descriptor lacking a
`dependencies` section, the first run routes the update into
`devDependencies`, while the second run's update step materialises an empty
`dependencies` section (`pkg.dependencies = {}`) that the first run's output
does not have. -/
theorem mergePackageJsonDeps_not_idempotent :
    mergePackageJsonDeps (mergePackageJsonDeps (some cexPkg) cexDc) cexDc
      ≠ mergePackageJsonDeps (some cexPkg) cexDc := by
  decide

/-! ## Claim C6 — step lemmas for the three merge loops -/

theorem depHas_eq_isSome (d? : Option Deps) (n : String) :
    depHas d? n = (sectGet d? n).isSome := by
  cases d? <;> rfl

theorem sectGet_some_setA_self (d : Deps) (n : String) (v : String) :
    sectGet (some (setA d n v)) n = some v := getA_setA_self d n v

theorem applyUpdate_sect (pkg : PackageJson) (n v k : String) (hk : k ≠ n) :
    sectGet (applyUpdate pkg n v).dependencies k = sectGet pkg.dependencies k
    ∧ sectGet (applyUpdate pkg n v).devDependencies k
        = sectGet pkg.devDependencies k := by
  rw [applyUpdate]
  split_ifs with h1 h2
  · refine ⟨?_, rfl⟩
    cases pkg.dependencies with
    | none => rfl
    | some d => exact getA_setA_ne d n k v hk
  · refine ⟨rfl, ?_⟩
    cases pkg.devDependencies with
    | none => rfl
    | some d => exact getA_setA_ne d n k v hk
  · refine ⟨?_, rfl⟩
    show getA (setA (pkg.dependencies.getD []) n v) k = _
    rw [getA_setA_ne _ n k v hk]
    cases pkg.dependencies with
    | none => rfl
    | some d => rfl

theorem applyUpdate_self_deps (pkg : PackageJson) (n v : String)
    (h : depHas pkg.dependencies n = true) :
    sectGet (applyUpdate pkg n v).dependencies n = some v
    ∧ (applyUpdate pkg n v).devDependencies = pkg.devDependencies := by
  rw [applyUpdate, if_pos h]
  refine ⟨?_, rfl⟩
  cases hd : pkg.dependencies with
  | none => rw [hd] at h; simp [depHas] at h
  | some d => exact getA_setA_self d n v

theorem applyUpdate_self_dev (pkg : PackageJson) (n v : String)
    (h1 : depHas pkg.dependencies n = false)
    (h2 : depHas pkg.devDependencies n = true) :
    sectGet (applyUpdate pkg n v).devDependencies n = some v
    ∧ (applyUpdate pkg n v).dependencies = pkg.dependencies := by
  rw [applyUpdate, if_neg (by simp [h1]), if_pos h2]
  refine ⟨?_, rfl⟩
  cases hd : pkg.devDependencies with
  | none => rw [hd] at h2; simp [depHas] at h2
  | some d => exact getA_setA_self d n v

theorem applyUpdate_self_neither (pkg : PackageJson) (n v : String)
    (h1 : depHas pkg.dependencies n = false)
    (h2 : depHas pkg.devDependencies n = false) :
    sectGet (applyUpdate pkg n v).dependencies n = some v
    ∧ (applyUpdate pkg n v).devDependencies = pkg.devDependencies := by
  rw [applyUpdate, if_neg (by simp [h1]), if_neg (by simp [h2])]
  exact ⟨getA_setA_self _ n v, rfl⟩

theorem applyRemove_sect (pkg : PackageJson) (n k : String) (hk : k ≠ n) :
    sectGet (applyRemove pkg n).dependencies k = sectGet pkg.dependencies k
    ∧ sectGet (applyRemove pkg n).devDependencies k
        = sectGet pkg.devDependencies k := by
  have hdel : ∀ d? : Option Deps,
      sectGet (d?.map (fun d => delA d n)) k = sectGet d? k := fun d? => by
    cases d? with
    | none => rfl
    | some d => exact getA_delA_ne d n k hk
  simp only [applyRemove]
  split_ifs with h1 h2 h3
  · exact ⟨hdel _, hdel _⟩
  · exact ⟨hdel _, rfl⟩
  · exact ⟨rfl, hdel _⟩
  · exact ⟨rfl, rfl⟩

theorem sectGet_none_of_not_depHas (d? : Option Deps) (n : String)
    (h : ¬ depHas d? n = true) : sectGet d? n = none := by
  rw [depHas_eq_isSome] at h
  cases hs : sectGet d? n with
  | none => rfl
  | some v => rw [hs] at h; simp at h

theorem applyRemove_self (pkg : PackageJson) (n : String) :
    sectGet (applyRemove pkg n).dependencies n = none
    ∧ sectGet (applyRemove pkg n).devDependencies n = none := by
  have hdel : ∀ d? : Option Deps,
      sectGet (d?.map (fun d => delA d n)) n = none := fun d? => by
    cases d? with
    | none => rfl
    | some d => exact getA_delA_self d n
  simp only [applyRemove]
  split_ifs with h1 h2 h3
  · exact ⟨hdel _, hdel _⟩
  · exact ⟨hdel _, sectGet_none_of_not_depHas _ n h2⟩
  · exact ⟨sectGet_none_of_not_depHas _ n h1, hdel _⟩
  · exact ⟨sectGet_none_of_not_depHas _ n h1, sectGet_none_of_not_depHas _ n h3⟩

theorem applyAdd_sect (pkg : PackageJson) (n v k : String) (hk : k ≠ n) :
    sectGet (applyAdd pkg n v).dependencies k = sectGet pkg.dependencies k := by
  show getA (setA (pkg.dependencies.getD []) n v) k = _
  rw [getA_setA_ne _ n k v hk]
  cases pkg.dependencies with
  | none => rfl
  | some d => rfl

theorem applyAdd_self (pkg : PackageJson) (n v : String) :
    sectGet (applyAdd pkg n v).dependencies n = some v :=
  getA_setA_self _ n v

theorem applyAdd_dev (pkg : PackageJson) (n v : String) :
    (applyAdd pkg n v).devDependencies = pkg.devDependencies := rfl

/-! ## Claim C6 — fold-level lemmas for the three merge loops -/

theorem updFold_cons (n v : String) (l : List (String × String)) (pkg : PackageJson) :
    updFold ((n, v) :: l) pkg = updFold l (applyUpdate pkg n v) := rfl

theorem remFold_cons (n : String) (l : List String) (pkg : PackageJson) :
    remFold (n :: l) pkg = remFold l (applyRemove pkg n) := rfl

theorem addFold_cons (n v : String) (l : List (String × String)) (pkg : PackageJson) :
    addFold ((n, v) :: l) pkg = addFold l (applyAdd pkg n v) := rfl

theorem updFold_sect : ∀ (l : List (String × String)) (pkg : PackageJson) (k : String),
    ¬ k ∈ keysA l →
    sectGet (updFold l pkg).dependencies k = sectGet pkg.dependencies k
    ∧ sectGet (updFold l pkg).devDependencies k = sectGet pkg.devDependencies k
  | [], _, _, _ => ⟨rfl, rfl⟩
  | (n, v) :: l, pkg, k, hk => by
    have hk2 : ¬ k ∈ n :: keysA l := hk
    have hkn : k ≠ n := fun h => hk2 (h ▸ List.mem_cons_self n _)
    have hkl : ¬ k ∈ keysA l := fun h => hk2 (List.mem_cons_of_mem n h)
    rw [updFold_cons]
    have hstep := applyUpdate_sect pkg n v k hkn
    have hrec := updFold_sect l (applyUpdate pkg n v) k hkl
    exact ⟨hrec.1.trans hstep.1, hrec.2.trans hstep.2⟩

theorem remFold_sect : ∀ (l : List String) (pkg : PackageJson) (k : String),
    ¬ k ∈ l →
    sectGet (remFold l pkg).dependencies k = sectGet pkg.dependencies k
    ∧ sectGet (remFold l pkg).devDependencies k = sectGet pkg.devDependencies k
  | [], _, _, _ => ⟨rfl, rfl⟩
  | n :: l, pkg, k, hk => by
    have hkn : k ≠ n := fun h => hk (h ▸ List.mem_cons_self n _)
    have hkl : ¬ k ∈ l := fun h => hk (List.mem_cons_of_mem n h)
    rw [remFold_cons]
    have hstep := applyRemove_sect pkg n k hkn
    have hrec := remFold_sect l (applyRemove pkg n) k hkl
    exact ⟨hrec.1.trans hstep.1, hrec.2.trans hstep.2⟩

theorem addFold_dev : ∀ (l : List (String × String)) (pkg : PackageJson),
    (addFold l pkg).devDependencies = pkg.devDependencies
  | [], _ => rfl
  | (n, v) :: l, pkg => by
    rw [addFold_cons, addFold_dev l, applyAdd_dev]

theorem addFold_sect : ∀ (l : List (String × String)) (pkg : PackageJson) (k : String),
    ¬ k ∈ keysA l →
    sectGet (addFold l pkg).dependencies k = sectGet pkg.dependencies k
  | [], _, _, _ => rfl
  | (n, v) :: l, pkg, k, hk => by
    have hk2 : ¬ k ∈ n :: keysA l := hk
    have hkn : k ≠ n := fun h => hk2 (h ▸ List.mem_cons_self n _)
    have hkl : ¬ k ∈ keysA l := fun h => hk2 (List.mem_cons_of_mem n h)
    rw [addFold_cons]
    exact (addFold_sect l (applyAdd pkg n v) k hkl).trans (applyAdd_sect pkg n v k hkn)

theorem updFold_self : ∀ (l : List (String × String)) (pkg : PackageJson) (n u : String),
    (keysA l).Nodup → (n, u) ∈ l →
    (depHas pkg.dependencies n = true →
      sectGet (updFold l pkg).dependencies n = some u
      ∧ sectGet (updFold l pkg).devDependencies n = sectGet pkg.devDependencies n)
    ∧ (depHas pkg.dependencies n = false → depHas pkg.devDependencies n = true →
      sectGet (updFold l pkg).devDependencies n = some u
      ∧ depHas (updFold l pkg).dependencies n = false)
    ∧ (depHas pkg.dependencies n = false → depHas pkg.devDependencies n = false →
      sectGet (updFold l pkg).dependencies n = some u)
  | [], _, n, u, _, hmem => by simp at hmem
  | (m, w) :: l, pkg, n, u, hnd, hmem => by
    have hnd2 := List.nodup_cons.mp (show (m :: keysA l).Nodup from hnd)
    rw [updFold_cons]
    rcases List.mem_cons.mp hmem with heq | hmem2
    · injection heq with hnm huw
      subst hnm
      subst huw
      refine ⟨fun h1 => ?_, fun h1 h2 => ?_, fun h1 h2 => ?_⟩
      · have hstep := applyUpdate_self_deps pkg n u h1
        have hframe := updFold_sect l (applyUpdate pkg n u) n hnd2.1
        exact ⟨hframe.1.trans hstep.1, hframe.2.trans (by rw [hstep.2])⟩
      · have hstep := applyUpdate_self_dev pkg n u h1 h2
        have hframe := updFold_sect l (applyUpdate pkg n u) n hnd2.1
        refine ⟨hframe.2.trans hstep.1, ?_⟩
        rw [depHas_eq_isSome, hframe.1, hstep.2, ← depHas_eq_isSome, h1]
      · have hstep := applyUpdate_self_neither pkg n u h1 h2
        have hframe := updFold_sect l (applyUpdate pkg n u) n hnd2.1
        exact hframe.1.trans hstep.1
    · have hmn : n ≠ m := fun h =>
        hnd2.1 (h ▸ (by simpa [keysA] using List.mem_map_of_mem Prod.fst hmem2))
      have hstep := applyUpdate_sect pkg m w n hmn
      have hrec := updFold_self l (applyUpdate pkg m w) n u hnd2.2 hmem2
      refine ⟨fun h1 => ?_, fun h1 h2 => ?_, fun h1 h2 => ?_⟩
      · have h1a : depHas (applyUpdate pkg m w).dependencies n = true := by
          rw [depHas_eq_isSome, hstep.1, ← depHas_eq_isSome]; exact h1
        have hx := hrec.1 h1a
        exact ⟨hx.1, hx.2.trans hstep.2⟩
      · have h1a : depHas (applyUpdate pkg m w).dependencies n = false := by
          rw [depHas_eq_isSome, hstep.1, ← depHas_eq_isSome]; exact h1
        have h2a : depHas (applyUpdate pkg m w).devDependencies n = true := by
          rw [depHas_eq_isSome, hstep.2, ← depHas_eq_isSome]; exact h2
        exact hrec.2.1 h1a h2a
      · have h1a : depHas (applyUpdate pkg m w).dependencies n = false := by
          rw [depHas_eq_isSome, hstep.1, ← depHas_eq_isSome]; exact h1
        have h2a : depHas (applyUpdate pkg m w).devDependencies n = false := by
          rw [depHas_eq_isSome, hstep.2, ← depHas_eq_isSome]; exact h2
        exact hrec.2.2 h1a h2a

theorem remFold_none : ∀ (l : List String) (pkg : PackageJson) (n : String),
    sectGet pkg.dependencies n = none → sectGet pkg.devDependencies n = none →
    sectGet (remFold l pkg).dependencies n = none
    ∧ sectGet (remFold l pkg).devDependencies n = none
  | [], _, _, h1, h2 => ⟨h1, h2⟩
  | m :: l, pkg, n, h1, h2 => by
    rw [remFold_cons]
    by_cases hnm : n = m
    · subst hnm
      have hstep := applyRemove_self pkg n
      exact remFold_none l _ n hstep.1 hstep.2
    · have hstep := applyRemove_sect pkg m n hnm
      exact remFold_none l _ n (hstep.1.trans h1) (hstep.2.trans h2)

theorem remFold_self : ∀ (l : List String) (pkg : PackageJson) (n : String),
    n ∈ l →
    sectGet (remFold l pkg).dependencies n = none
    ∧ sectGet (remFold l pkg).devDependencies n = none
  | [], _, n, h => by simp at h
  | m :: l, pkg, n, h => by
    rw [remFold_cons]
    by_cases hnl : n ∈ l
    · exact remFold_self l _ n hnl
    · have hnm : n = m := by
        rcases List.mem_cons.mp h with h | h
        · exact h
        · exact absurd h hnl
      subst hnm
      have hstep := applyRemove_self pkg n
      exact remFold_none l _ n hstep.1 hstep.2

theorem addFold_self : ∀ (l : List (String × String)) (pkg : PackageJson) (n a : String),
    (keysA l).Nodup → (n, a) ∈ l →
    sectGet (addFold l pkg).dependencies n = some a
  | [], _, n, a, _, h => by simp at h
  | (m, w) :: l, pkg, n, a, hnd, hmem => by
    have hnd2 := List.nodup_cons.mp (show (m :: keysA l).Nodup from hnd)
    rw [addFold_cons]
    rcases List.mem_cons.mp hmem with heq | hmem2
    · injection heq with hnm haw
      subst hnm
      subst haw
      exact (addFold_sect l (applyAdd pkg n a) n hnd2.1).trans (applyAdd_self pkg n a)
    · exact addFold_self l _ n a hnd2.2 hmem2

/-! ## Claim C6 — sequences of in-place writes -/

/-- A sequence of JS property writes applied to a dependency object. -/
def writeFold (d : Deps) (ops : List (String × String)) : Deps :=
  ops.foldl (fun acc nv => setA acc nv.1 nv.2) d

/-- The last value written to key `k` by a sequence of writes, if any. -/
def lastOpt (ops : List (String × String)) (k : String) : Option String :=
  ops.foldl (fun acc nv => if nv.1 = k then some nv.2 else acc) none

theorem writeFold_cons (d : Deps) (n v : String) (ops : List (String × String)) :
    writeFold d ((n, v) :: ops) = writeFold (setA d n v) ops := rfl

theorem writeFold_append (d : Deps) (xs ys : List (String × String)) :
    writeFold d (xs ++ ys) = writeFold (writeFold d xs) ys := by
  rw [writeFold, List.foldl_append]
  rfl

theorem lastOpt_foldl_init :
    ∀ (ops : List (String × String)) (k : String) (init : Option String),
      ops.foldl (fun acc nv => if nv.1 = k then some nv.2 else acc) init
        = match lastOpt ops k with
          | some v => some v
          | none => init
  | [], _, init => by cases init <;> rfl
  | (m, v) :: ops, k, init => by
    have hcons : lastOpt ((m, v) :: ops) k
        = ops.foldl (fun acc nv => if nv.1 = k then some nv.2 else acc)
            (if m = k then some v else none) := rfl
    rw [List.foldl_cons, hcons]
    by_cases hm : m = k
    · simp only [if_pos hm]
      rw [lastOpt_foldl_init ops k (some v)]
      cases lastOpt ops k <;> rfl
    · simp only [if_neg hm]
      rw [lastOpt_foldl_init ops k init]
      rfl

theorem lastOpt_eq_none : ∀ (ops : List (String × String)) (k : String),
    ¬ k ∈ keysA ops → lastOpt ops k = none
  | [], _, _ => rfl
  | (m, v) :: ops, k, h => by
    have h2 : ¬ k ∈ m :: keysA ops := h
    have hm : ¬ m = k := fun hx => h2 (hx ▸ List.mem_cons_self m _)
    have hrest : ¬ k ∈ keysA ops := fun hx => h2 (List.mem_cons_of_mem m hx)
    show ops.foldl _ (if m = k then some v else none) = none
    rw [if_neg hm]
    exact lastOpt_eq_none ops k hrest

theorem lastOpt_of_nodup_mem :
    ∀ (ops : List (String × String)) (k v : String),
      (keysA ops).Nodup → (k, v) ∈ ops → lastOpt ops k = some v
  | [], _, _, _, h => by simp at h
  | (m, w) :: ops, k, v, hnd, hmem => by
    have hnd2 := List.nodup_cons.mp (show (m :: keysA ops).Nodup from hnd)
    show ops.foldl _ (if m = k then some w else none) = some v
    rcases List.mem_cons.mp hmem with heq | hmem2
    · injection heq with hkm hvw
      subst hkm
      subst hvw
      rw [if_pos rfl, lastOpt_foldl_init ops k (some v),
        lastOpt_eq_none ops k hnd2.1]
    · have hmk : ¬ m = k := fun hx =>
        hnd2.1 (hx ▸ (by simpa [keysA] using List.mem_map_of_mem Prod.fst hmem2))
      rw [if_neg hmk]
      exact lastOpt_of_nodup_mem ops k v hnd2.2 hmem2

theorem lastOpt_append (xs ys : List (String × String)) (k : String) :
    lastOpt (xs ++ ys) k
      = match lastOpt ys k with
        | some v => some v
        | none => lastOpt xs k := by
  show (xs ++ ys).foldl _ none = _
  rw [List.foldl_append]
  exact lastOpt_foldl_init ys k (lastOpt xs k)

theorem keysA_writeFold : ∀ (ops : List (String × String)) (d : Deps),
    (∀ nv ∈ ops, nv.1 ∈ keysA d) → keysA (writeFold d ops) = keysA d
  | [], _, _ => rfl
  | (n, v) :: ops, d, h => by
    rw [writeFold_cons]
    have hn : n ∈ keysA d := h (n, v) (List.mem_cons_self _ _)
    have hkeys : keysA (setA d n v) = keysA d := by rw [keysA_setA, if_pos hn]
    rw [keysA_writeFold ops (setA d n v)
      (fun nv hnv => by rw [hkeys]; exact h nv (List.mem_cons_of_mem _ hnv)),
      hkeys]

theorem writeFold_eq_map : ∀ (ops : List (String × String)) (d : Deps),
    (keysA d).Nodup → (∀ nv ∈ ops, nv.1 ∈ keysA d) →
    writeFold d ops = d.map (fun kv => (kv.1, (lastOpt ops kv.1).getD kv.2))
  | [], d, _, _ => by
    refine ((List.map_congr_left ?_).trans (List.map_id d)).symm
    intro kv _
    rfl
  | (n, v) :: ops, d, hnd, hops => by
    rw [writeFold_cons]
    have hn : n ∈ keysA d := hops (n, v) (List.mem_cons_self _ _)
    have hkeys : keysA (setA d n v) = keysA d := by rw [keysA_setA, if_pos hn]
    have hnd2 : (keysA (setA d n v)).Nodup := by rw [hkeys]; exact hnd
    have hops2 : ∀ nv ∈ ops, nv.1 ∈ keysA (setA d n v) := by
      intro nv hnv
      rw [hkeys]
      exact hops nv (List.mem_cons_of_mem _ hnv)
    rw [writeFold_eq_map ops (setA d n v) hnd2 hops2,
      setA_eq_map_of_nodup d n v hnd hn, List.map_map]
    refine List.map_congr_left ?_
    intro kv _
    simp only [Function.comp_apply]
    have hcons : lastOpt ((n, v) :: ops) kv.1
        = ops.foldl (fun acc nv => if nv.1 = kv.1 then some nv.2 else acc)
            (if n = kv.1 then some v else none) := rfl
    by_cases hkv : kv.1 = n
    · rw [if_pos hkv]
      show (kv.1, (lastOpt ops kv.1).getD v) = (kv.1, (lastOpt ((n, v) :: ops) kv.1).getD kv.2)
      congr 1
      rw [hcons, if_pos hkv.symm, lastOpt_foldl_init ops kv.1 (some v)]
      cases lastOpt ops kv.1 <;> rfl
    · rw [if_neg hkv]
      show (kv.1, (lastOpt ops kv.1).getD kv.2) = (kv.1, (lastOpt ((n, v) :: ops) kv.1).getD kv.2)
      congr 1
      rw [hcons, if_neg (fun hx => hkv hx.symm), lastOpt_foldl_init ops kv.1 none]
      cases lastOpt ops kv.1 <;> rfl

theorem map_lastW_restore (d : Deps) (ops : List (String × String))
    (h : ∀ kv ∈ d, (lastOpt ops kv.1).getD kv.2 = kv.2) :
    d.map (fun kv => (kv.1, (lastOpt ops kv.1).getD kv.2)) = d := by
  refine (List.map_congr_left ?_).trans (List.map_id d)
  intro kv hkv
  rw [h kv hkv]
  rfl

/-! ## Claim C6 — the second run leaves the merged descriptor fixed -/

theorem mem_keysA {β : Type} (l : List (String × β)) (n : String) :
    n ∈ keysA l ↔ ∃ b, (n, b) ∈ l := by
  constructor
  · intro h
    rcases List.mem_map.mp h with ⟨kv, hkv, rfl⟩
    exact ⟨kv.2, hkv⟩
  · rintro ⟨b, hb⟩
    exact List.mem_map_of_mem Prod.fst hb

theorem depHas_setA_present (d : Deps) (n v k : String) (hn : n ∈ keysA d) :
    depHas (some (setA d n v)) k = depHas (some d) k := by
  show (getA (setA d n v) k).isSome = (getA d k).isSome
  by_cases hk : k = n
  · subst hk
    rw [getA_setA_self, (getA_isSome_iff_mem d k).mpr hn]
    rfl
  · rw [getA_setA_ne d n k v hk]

theorem applyUpdate_noop_dev (s : PackageJson) (n v : String)
    (h1 : depHas s.dependencies n = false)
    (h2 : depHas s.devDependencies n = true)
    (h3 : sectGet s.devDependencies n = some v) :
    applyUpdate s n v = s := by
  rw [applyUpdate, if_neg (by simp [h1]), if_pos h2]
  cases hdv : s.devDependencies with
  | none => rw [hdv] at h2; simp [depHas] at h2
  | some dv =>
    have hset : setA dv n v = dv := setA_same dv n v (by rw [hdv] at h3; exact h3)
    have hmap : Option.map (fun d => setA d n v) (some dv) = s.devDependencies := by
      show some (setA dv n v) = s.devDependencies
      rw [hset, hdv]
    rw [hmap]

/-- Replace the `dependencies` section of a descriptor. -/
def withDeps (s : PackageJson) (d? : Option Deps) : PackageJson :=
  { s with dependencies := d? }

theorem withDeps_self (s : PackageJson) : withDeps s s.dependencies = s := rfl

theorem updFold_writes : ∀ (l : List (String × String)) (s : PackageJson) (d : Deps),
    s.dependencies = some d →
    (∀ nv ∈ l, depHas s.dependencies nv.1 = true ∨
      (depHas s.devDependencies nv.1 = true
        ∧ sectGet s.devDependencies nv.1 = some nv.2)) →
    updFold l s
      = withDeps s (some (writeFold d (l.filter (fun nv => depHas (some d) nv.1))))
  | [], s, d, hd, _ => by
    show s = withDeps s (some d)
    rw [← hd, withDeps_self]
  | (n, v) :: l, s, d, hd, hsat => by
    have hdepHead := hsat (n, v) (List.mem_cons_self _ _)
    rw [updFold_cons, List.filter_cons]
    cases hdep : depHas (some d : Option Deps) n with
    | true =>
      have hn : n ∈ keysA d := (getA_isSome_iff_mem d n).mp hdep
      have hdepS : depHas s.dependencies n = true := by rw [hd]; exact hdep
      have happ : applyUpdate s n v
          = { s with dependencies := some (setA d n v) } := by
        rw [applyUpdate, if_pos hdepS, hd]
        rfl
      rw [happ]
      have hsat2 : ∀ nv ∈ l,
          depHas (some (setA d n v)) nv.1 = true ∨
          (depHas s.devDependencies nv.1 = true
            ∧ sectGet s.devDependencies nv.1 = some nv.2) := by
        intro nv hnv
        rcases hsat nv (List.mem_cons_of_mem _ hnv) with h | h
        · left
          rw [depHas_setA_present d n v nv.1 hn, ← hd]
          exact h
        · right
          exact h
      rw [updFold_writes l _ (setA d n v) rfl hsat2]
      have hfeq : l.filter (fun nv => depHas (some (setA d n v)) nv.1)
          = l.filter (fun nv => depHas (some d) nv.1) :=
        List.filter_congr (fun nv _ => depHas_setA_present d n v nv.1 hn)
      rw [hfeq, if_pos (rfl : (true : Bool) = true), writeFold_cons]
      rfl
    | false =>
      rw [if_neg (show ¬ (false : Bool) = true by simp)]
      have hdepS : depHas s.dependencies n = false := by rw [hd]; exact hdep
      rcases hdepHead with h | ⟨h2, h3⟩
      · rw [hdepS] at h
        exact Bool.noConfusion h
      · rw [applyUpdate_noop_dev s n v hdepS h2 h3]
        exact updFold_writes l s d hd
          (fun nv hnv => hsat nv (List.mem_cons_of_mem _ hnv))

theorem updFold_noop_none : ∀ (l : List (String × String)) (s : PackageJson),
    s.dependencies = none →
    (∀ nv ∈ l, depHas s.devDependencies nv.1 = true
      ∧ sectGet s.devDependencies nv.1 = some nv.2) →
    updFold l s = s
  | [], _, _, _ => rfl
  | (n, v) :: l, s, hd, hsat => by
    have h1 : depHas s.dependencies n = false := by rw [hd]; rfl
    have hh := hsat (n, v) (List.mem_cons_self _ _)
    rw [updFold_cons, applyUpdate_noop_dev s n v h1 hh.1 hh.2]
    exact updFold_noop_none l s hd
      (fun nv hnv => hsat nv (List.mem_cons_of_mem _ hnv))

theorem remFold_noop : ∀ (l : List String) (s : PackageJson),
    (∀ n ∈ l, depHas s.dependencies n = false
      ∧ depHas s.devDependencies n = false) →
    remFold l s = s
  | [], _, _ => rfl
  | n :: l, s, h => by
    have hn := h n (List.mem_cons_self _ _)
    have happ : applyRemove s n = s := by
      simp only [applyRemove]
      rw [if_neg (by simp [hn.1, hn.2]), if_neg (by simp [hn.1, hn.2])]
    rw [remFold_cons, happ]
    exact remFold_noop l s (fun m hm => h m (List.mem_cons_of_mem _ hm))

theorem addFold_writes : ∀ (l : List (String × String)) (s : PackageJson) (d : Deps),
    s.dependencies = some d → (∀ nv ∈ l, nv.1 ∈ keysA d) →
    addFold l s = withDeps s (some (writeFold d l))
  | [], s, d, hd, _ => by
    show s = withDeps s (some d)
    rw [← hd, withDeps_self]
  | (n, v) :: l, s, d, hd, hk => by
    have happ : applyAdd s n v = { s with dependencies := some (setA d n v) } := by
      rw [applyAdd, hd]
      rfl
    have hn : n ∈ keysA d := hk (n, v) (List.mem_cons_self _ _)
    have hkeys : keysA (setA d n v) = keysA d := by rw [keysA_setA, if_pos hn]
    rw [addFold_cons, happ,
      addFold_writes l _ (setA d n v) rfl
        (fun nv hnv => by rw [hkeys]; exact hk nv (List.mem_cons_of_mem _ hnv)),
      writeFold_cons]
    rfl

/-! ## Claim C6 — key uniqueness is preserved by the merge -/

/-- The JS-object invariant for a dependency section: no duplicated keys. -/
def nodupKeysO (d? : Option Deps) : Prop := (keysA (d?.getD [])).Nodup

theorem nodup_setA (d : Deps) (n v : String) (h : (keysA d).Nodup) :
    (keysA (setA d n v)).Nodup := by
  rw [keysA_setA]
  split_ifs with hn
  · exact h
  · simp [List.nodup_append, h, hn]

theorem nodup_delA (d : Deps) (n : String) (h : (keysA d).Nodup) :
    (keysA (delA d n)).Nodup :=
  (keysA_delA_sublist d n).nodup h

theorem nodupKeysO_map_setA (d? : Option Deps) (n v : String)
    (h : nodupKeysO d?) : nodupKeysO (d?.map (fun d => setA d n v)) := by
  cases d? with
  | none => exact h
  | some d => exact nodup_setA d n v h

theorem nodupKeysO_map_delA (d? : Option Deps) (n : String)
    (h : nodupKeysO d?) : nodupKeysO (d?.map (fun d => delA d n)) := by
  cases d? with
  | none => exact h
  | some d => exact nodup_delA d n h

theorem applyUpdate_nodup (pkg : PackageJson) (n v : String)
    (h1 : nodupKeysO pkg.dependencies) (h2 : nodupKeysO pkg.devDependencies) :
    nodupKeysO (applyUpdate pkg n v).dependencies
    ∧ nodupKeysO (applyUpdate pkg n v).devDependencies := by
  rw [applyUpdate]
  split_ifs with hc1 hc2
  · exact ⟨nodupKeysO_map_setA _ n v h1, h2⟩
  · exact ⟨h1, nodupKeysO_map_setA _ n v h2⟩
  · exact ⟨nodup_setA _ n v h1, h2⟩

theorem applyRemove_nodup (pkg : PackageJson) (n : String)
    (h1 : nodupKeysO pkg.dependencies) (h2 : nodupKeysO pkg.devDependencies) :
    nodupKeysO (applyRemove pkg n).dependencies
    ∧ nodupKeysO (applyRemove pkg n).devDependencies := by
  simp only [applyRemove]
  split_ifs with hc1 hc2 hc3
  · exact ⟨nodupKeysO_map_delA _ n h1, nodupKeysO_map_delA _ n h2⟩
  · exact ⟨nodupKeysO_map_delA _ n h1, h2⟩
  · exact ⟨h1, nodupKeysO_map_delA _ n h2⟩
  · exact ⟨h1, h2⟩

theorem applyAdd_nodup (pkg : PackageJson) (n v : String)
    (h1 : nodupKeysO pkg.dependencies) (h2 : nodupKeysO pkg.devDependencies) :
    nodupKeysO (applyAdd pkg n v).dependencies
    ∧ nodupKeysO (applyAdd pkg n v).devDependencies :=
  ⟨nodup_setA _ n v h1, h2⟩

theorem updFold_nodup : ∀ (l : List (String × String)) (pkg : PackageJson),
    nodupKeysO pkg.dependencies → nodupKeysO pkg.devDependencies →
    nodupKeysO (updFold l pkg).dependencies
    ∧ nodupKeysO (updFold l pkg).devDependencies
  | [], _, h1, h2 => ⟨h1, h2⟩
  | (n, v) :: l, pkg, h1, h2 => by
    rw [updFold_cons]
    have hstep := applyUpdate_nodup pkg n v h1 h2
    exact updFold_nodup l _ hstep.1 hstep.2

theorem remFold_nodup : ∀ (l : List String) (pkg : PackageJson),
    nodupKeysO pkg.dependencies → nodupKeysO pkg.devDependencies →
    nodupKeysO (remFold l pkg).dependencies
    ∧ nodupKeysO (remFold l pkg).devDependencies
  | [], _, h1, h2 => ⟨h1, h2⟩
  | n :: l, pkg, h1, h2 => by
    rw [remFold_cons]
    have hstep := applyRemove_nodup pkg n h1 h2
    exact remFold_nodup l _ hstep.1 hstep.2

theorem addFold_nodup : ∀ (l : List (String × String)) (pkg : PackageJson),
    nodupKeysO pkg.dependencies → nodupKeysO pkg.devDependencies →
    nodupKeysO (addFold l pkg).dependencies
    ∧ nodupKeysO (addFold l pkg).devDependencies
  | [], _, h1, h2 => ⟨h1, h2⟩
  | (n, v) :: l, pkg, h1, h2 => by
    rw [addFold_cons]
    have hstep := applyAdd_nodup pkg n v h1 h2
    exact addFold_nodup l _ hstep.1 hstep.2

theorem mergeDepsCore_nodup (pkg : PackageJson) (dc : DepChanges)
    (h1 : nodupKeysO pkg.dependencies) (h2 : nodupKeysO pkg.devDependencies) :
    nodupKeysO (mergeDepsCore pkg dc).dependencies
    ∧ nodupKeysO (mergeDepsCore pkg dc).devDependencies := by
  have hu := updFold_nodup dc.update pkg h1 h2
  have hr := remFold_nodup dc.remove _ hu.1 hu.2
  exact addFold_nodup dc.add _ hr.1 hr.2

/-! ## Claim C6 — idempotence under remove-disjointness -/

theorem depHas_some_eq_false_iff (d : Deps) (n : String) :
    (depHas (some d) n = false) ↔ ¬ n ∈ keysA d := by
  rw [show depHas (some d) n = (getA d n).isSome from rfl, ← getA_isSome_iff_mem d n]
  cases (getA d n).isSome <;> simp

theorem depHas_false_sectGet (d? : Option Deps) (n : String)
    (h : depHas d? n = false) : sectGet d? n = none :=
  sectGet_none_of_not_depHas d? n (by simp [h])

theorem merge_G1 (pkg : PackageJson) (dc : DepChanges)
    (hndU : (keysA dc.update).Nodup) (hndA : (keysA dc.add).Nodup)
    (hdisj : ∀ n ∈ dc.remove, ¬ n ∈ keysA dc.update ∧ ¬ n ∈ keysA dc.add) :
    ∀ nv ∈ dc.update,
      depHas (mergeDepsCore pkg dc).dependencies nv.1 = true ∨
      (depHas (mergeDepsCore pkg dc).devDependencies nv.1 = true
        ∧ sectGet (mergeDepsCore pkg dc).devDependencies nv.1 = some nv.2) := by
  intro nv hmem
  have hnr : ¬ nv.1 ∈ dc.remove := fun hr =>
    (hdisj nv.1 hr).1 (List.mem_map_of_mem Prod.fst hmem)
  have hself := updFold_self dc.update pkg nv.1 nv.2 hndU hmem
  have hRframe := remFold_sect dc.remove (updFold dc.update pkg) nv.1 hnr
  have hAleft : sectGet (remFold dc.remove (updFold dc.update pkg)).dependencies
        nv.1 = some nv.2 →
      depHas (mergeDepsCore pkg dc).dependencies nv.1 = true := by
    intro h2
    by_cases hka : nv.1 ∈ keysA dc.add
    · rcases (mem_keysA dc.add nv.1).mp hka with ⟨a, hmema⟩
      rw [mergeDepsCore, depHas_eq_isSome,
        addFold_self dc.add _ nv.1 a hndA hmema]
      rfl
    · rw [mergeDepsCore, depHas_eq_isSome, addFold_sect dc.add _ nv.1 hka, h2]
      rfl
  cases hc1 : depHas pkg.dependencies nv.1 with
  | true =>
    exact Or.inl (hAleft (hRframe.1.trans (hself.1 hc1).1))
  | false =>
    cases hc2 : depHas pkg.devDependencies nv.1 with
    | true =>
      have hx := hself.2.1 hc1 hc2
      have h3 : sectGet (mergeDepsCore pkg dc).devDependencies nv.1
          = some nv.2 := by
        rw [mergeDepsCore, addFold_dev]
        exact hRframe.2.trans hx.1
      exact Or.inr ⟨by rw [depHas_eq_isSome, h3]; rfl, h3⟩
    | false =>
      exact Or.inl (hAleft (hRframe.1.trans (hself.2.2 hc1 hc2)))

theorem merge_G2 (pkg : PackageJson) (dc : DepChanges)
    (hndU : (keysA dc.update).Nodup)
    (hdisj : ∀ n ∈ dc.remove, ¬ n ∈ keysA dc.update ∧ ¬ n ∈ keysA dc.add) :
    ∀ nv ∈ dc.update, ¬ nv.1 ∈ keysA dc.add →
      depHas (mergeDepsCore pkg dc).dependencies nv.1 = true →
      sectGet (mergeDepsCore pkg dc).dependencies nv.1 = some nv.2 := by
  intro nv hmem hka hdep
  have hnr : ¬ nv.1 ∈ dc.remove := fun hr =>
    (hdisj nv.1 hr).1 (List.mem_map_of_mem Prod.fst hmem)
  have hself := updFold_self dc.update pkg nv.1 nv.2 hndU hmem
  have hRframe := remFold_sect dc.remove (updFold dc.update pkg) nv.1 hnr
  have hAframe := addFold_sect dc.add (remFold dc.remove (updFold dc.update pkg))
    nv.1 hka
  cases hc1 : depHas pkg.dependencies nv.1 with
  | true =>
    rw [mergeDepsCore]
    exact hAframe.trans (hRframe.1.trans (hself.1 hc1).1)
  | false =>
    cases hc2 : depHas pkg.devDependencies nv.1 with
    | true =>
      have hx := hself.2.1 hc1 hc2
      have hnone : sectGet (mergeDepsCore pkg dc).dependencies nv.1 = none := by
        rw [mergeDepsCore]
        exact hAframe.trans (hRframe.1.trans (depHas_false_sectGet _ _ hx.2))
      rw [depHas_eq_isSome, hnone] at hdep
      exact Bool.noConfusion hdep
    | false =>
      rw [mergeDepsCore]
      exact hAframe.trans (hRframe.1.trans (hself.2.2 hc1 hc2))

theorem merge_G3 (pkg : PackageJson) (dc : DepChanges)
    (hdisj : ∀ n ∈ dc.remove, ¬ n ∈ keysA dc.update ∧ ¬ n ∈ keysA dc.add) :
    ∀ n ∈ dc.remove,
      depHas (mergeDepsCore pkg dc).dependencies n = false
      ∧ depHas (mergeDepsCore pkg dc).devDependencies n = false := by
  intro n hn
  have hra := remFold_self dc.remove (updFold dc.update pkg) n hn
  have hka : ¬ n ∈ keysA dc.add := (hdisj n hn).2
  constructor
  · rw [mergeDepsCore, depHas_eq_isSome, addFold_sect dc.add _ n hka, hra.1]
    rfl
  · rw [mergeDepsCore, depHas_eq_isSome, addFold_dev, hra.2]
    rfl

theorem merge_G4 (pkg : PackageJson) (dc : DepChanges)
    (hndA : (keysA dc.add).Nodup) :
    ∀ nv ∈ dc.add,
      sectGet (mergeDepsCore pkg dc).dependencies nv.1 = some nv.2 := by
  intro nv hmem
  rw [mergeDepsCore]
  exact addFold_self dc.add _ nv.1 nv.2 hndA hmem

theorem mergeDepsCore_idem (pkg : PackageJson) (dc : DepChanges)
    (hD : nodupKeysO pkg.dependencies) (hV : nodupKeysO pkg.devDependencies)
    (hndU : (keysA dc.update).Nodup) (hndA : (keysA dc.add).Nodup)
    (hdisj : ∀ n ∈ dc.remove, ¬ n ∈ keysA dc.update ∧ ¬ n ∈ keysA dc.add) :
    mergeDepsCore (mergeDepsCore pkg dc) dc = mergeDepsCore pkg dc := by
  have hG1 := merge_G1 pkg dc hndU hndA hdisj
  have hG2 := merge_G2 pkg dc hndU hdisj
  have hG3 := merge_G3 pkg dc hdisj
  have hG4 := merge_G4 pkg dc hndA
  have hqnd := mergeDepsCore_nodup pkg dc hD hV
  generalize hq : mergeDepsCore pkg dc = q at hG1 hG2 hG3 hG4 hqnd ⊢
  cases hqd : q.dependencies with
  | none =>
    have hadd : dc.add = [] := by
      cases hadde : dc.add with
      | nil => rfl
      | cons nv l =>
        have h4 := hG4 nv (by rw [hadde]; exact List.mem_cons_self _ _)
        rw [hqd] at h4
        exact Option.noConfusion h4
    have hUq : updFold dc.update q = q :=
      updFold_noop_none dc.update q hqd (fun nv hnv => by
        rcases hG1 nv hnv with h | h
        · rw [hqd] at h
          exact absurd h (by simp [depHas])
        · exact h)
    show addFold dc.add (remFold dc.remove (updFold dc.update q)) = q
    rw [hUq, remFold_noop dc.remove q hG3, hadd]
    rfl
  | some d =>
    have hndq : (keysA d).Nodup := by
      have h := hqnd.1
      rw [nodupKeysO, hqd] at h
      exact h
    have hUw := updFold_writes dc.update q d hqd hG1
    have hUkeys : ∀ nv ∈ dc.update.filter (fun nv => depHas (some d) nv.1),
        nv.1 ∈ keysA d := by
      intro nv hnv
      exact (getA_isSome_iff_mem d nv.1).mp (List.mem_filter.mp hnv).2
    have hWkeys :
        keysA (writeFold d (dc.update.filter (fun nv => depHas (some d) nv.1)))
          = keysA d :=
      keysA_writeFold _ d hUkeys
    have hndW :
        (keysA (dc.update.filter (fun nv => depHas (some d) nv.1))).Nodup :=
      ((List.filter_sublist dc.update).map Prod.fst).nodup hndU
    have hRn :
        remFold dc.remove
          (withDeps q (some (writeFold d
            (dc.update.filter (fun nv => depHas (some d) nv.1)))))
        = withDeps q (some (writeFold d
            (dc.update.filter (fun nv => depHas (some d) nv.1)))) := by
      apply remFold_noop
      intro n hn
      have hg3 := hG3 n hn
      constructor
      · show depHas (some (writeFold d _)) n = false
        rw [depHas_some_eq_false_iff, hWkeys]
        have hg3d := hg3.1
        rw [hqd] at hg3d
        exact (depHas_some_eq_false_iff d n).mp hg3d
      · exact hg3.2
    have hAw := addFold_writes dc.add
      (withDeps q (some (writeFold d
        (dc.update.filter (fun nv => depHas (some d) nv.1)))))
      (writeFold d (dc.update.filter (fun nv => depHas (some d) nv.1))) rfl
      (fun nv hnv => by
        rw [hWkeys]
        have h4 := hG4 nv hnv
        rw [hqd] at h4
        have h4b : getA d nv.1 = some nv.2 := h4
        exact (getA_isSome_iff_mem d nv.1).mp (by rw [h4b]; rfl))
    show addFold dc.add (remFold dc.remove (updFold dc.update q)) = q
    rw [hUw, hRn, hAw]
    have hcollapse :
        withDeps (withDeps q (some (writeFold d
            (dc.update.filter (fun nv => depHas (some d) nv.1)))))
          (some (writeFold (writeFold d
            (dc.update.filter (fun nv => depHas (some d) nv.1))) dc.add))
        = withDeps q (some (writeFold d
            (dc.update.filter (fun nv => depHas (some d) nv.1) ++ dc.add))) := by
      rw [writeFold_append]
      rfl
    rw [hcollapse]
    have hfinal : writeFold d
        (dc.update.filter (fun nv => depHas (some d) nv.1) ++ dc.add) = d := by
      rw [writeFold_eq_map _ d hndq ?allkeys]
      case allkeys =>
        intro nv hnv
        rcases List.mem_append.mp hnv with h | h
        · exact hUkeys nv h
        · have h4 := hG4 nv h
          rw [hqd] at h4
          have h4b : getA d nv.1 = some nv.2 := h4
          exact (getA_isSome_iff_mem d nv.1).mp (by rw [h4b]; rfl)
      apply map_lastW_restore
      intro kv hkv
      have hget : getA d kv.1 = some kv.2 := mem_getA_of_nodup d kv.1 kv.2 hndq hkv
      rw [lastOpt_append]
      by_cases hka : kv.1 ∈ keysA dc.add
      · rcases (mem_keysA dc.add kv.1).mp hka with ⟨a, hmema⟩
        rw [lastOpt_of_nodup_mem dc.add kv.1 a hndA hmema]
        show a = kv.2
        have h4 := hG4 (kv.1, a) hmema
        rw [hqd] at h4
        have h4b : getA d kv.1 = some a := h4
        rw [hget] at h4b
        injection h4b with he
        exact he.symm
      · rw [lastOpt_eq_none dc.add kv.1 hka]
        show (lastOpt (dc.update.filter (fun nv => depHas (some d) nv.1))
          kv.1).getD kv.2 = kv.2
        by_cases hku : kv.1
            ∈ keysA (dc.update.filter (fun nv => depHas (some d) nv.1))
        · rcases (mem_keysA _ kv.1).mp hku with ⟨u, hmemw⟩
          rw [lastOpt_of_nodup_mem _ kv.1 u hndW hmemw]
          show u = kv.2
          have hmemU : (kv.1, u) ∈ dc.update := (List.mem_filter.mp hmemw).1
          have hdepq : depHas q.dependencies kv.1 = true := by
            rw [hqd]
            show (getA d kv.1).isSome = true
            rw [hget]
            rfl
          have h2 := hG2 (kv.1, u) hmemU hka hdepq
          rw [hqd] at h2
          have h2b : getA d kv.1 = some u := h2
          rw [hget] at h2b
          injection h2b with he
          exact he.symm
        · rw [lastOpt_eq_none _ kv.1 hku]
          rfl
    rw [hfinal, ← hqd, withDeps_self]

/-- **C6, amended.**  The dependency merge is idempotent as long as no
package name listed in `dependencies.remove` also appears among the keys of
`dependencies.update` or `dependencies.add` (the counterexample
`mergePackageJsonDeps_not_idempotent` shows the claim fails when `remove`
overlaps them): under that disjointness — with the JS-object invariant that
key lists have no duplicates — applying `mergePackageJsonDeps` twice yields
exactly the descriptor of applying it once, and a missing `package.json`
stays missing. -/
theorem mergePackageJsonDeps_idem (pkg? : Option PackageJson) (dc : DepChanges)
    (hD : ∀ pkg, pkg? = some pkg →
      nodupKeysO pkg.dependencies ∧ nodupKeysO pkg.devDependencies)
    (hndU : (keysA dc.update).Nodup) (hndA : (keysA dc.add).Nodup)
    (hdisj : ∀ n ∈ dc.remove, ¬ n ∈ keysA dc.update ∧ ¬ n ∈ keysA dc.add) :
    mergePackageJsonDeps (mergePackageJsonDeps pkg? dc) dc
      = mergePackageJsonDeps pkg? dc := by
  cases pkg? with
  | none => rfl
  | some pkg =>
    show some (mergeDepsCore (mergeDepsCore pkg dc) dc)
      = some (mergeDepsCore pkg dc)
    rw [mergeDepsCore_idem pkg dc (hD pkg rfl).1 (hD pkg rfl).2 hndU hndA hdisj]

/-- A concrete descriptor for the C6 witness. -/
def witPkg : PackageJson :=
  ⟨some [("a", "1")], some [("b", "2")], [("name", "demo")]⟩

/-- A concrete manifest block for the C6 witness: updates `a` and `c`,
removes `b`, adds `d` — `remove` disjoint from the other two. -/
def witDc : DepChanges := ⟨[("a", "3"), ("c", "4")], ["b"], [("d", "5")]⟩

/-- **C6, witness.**  The amended idempotence theorem applied to a concrete
descriptor and manifest block satisfying the disjointness hypothesis. -/
theorem mergePackageJsonDeps_idem_witness :
    ((keysA witDc.update).Nodup ∧ (keysA witDc.add).Nodup
      ∧ ∀ n ∈ witDc.remove, ¬ n ∈ keysA witDc.update ∧ ¬ n ∈ keysA witDc.add)
    ∧ mergePackageJsonDeps (mergePackageJsonDeps (some witPkg) witDc) witDc
        = mergePackageJsonDeps (some witPkg) witDc := by
  refine ⟨⟨by decide, by decide, by decide⟩, ?_⟩
  exact mergePackageJsonDeps_idem (some witPkg) witDc
    (fun pkg h => by
      cases h
      exact ⟨by unfold nodupKeysO; decide, by unfold nodupKeysO; decide⟩)
    (by decide) (by decide) (by decide)

/-! ## `src/upgrade.ts` — migration scanner -/

/-- `MigrationStep` from `src/types.ts`.  A compiled regular expression is
abstracted as the Boolean content test `regex.test(content)` it denotes (the
regex engine is a library external to this code); `searchPaths` mirrors the
optional array of path strings. -/
structure MigrationStep where
  title : String
  description : String
  pattern : Option (String → Bool)
  searchPaths : Option (List PathEntry)

/-- The search paths actually used by the scanner:
`migration.searchPaths?.length ? migration.searchPaths : ['src/']` — both an
absent and an empty array fall back to the single default root `src/`. -/
def searchPathsOf (migration : MigrationStep) : List PathEntry :=
  match migration.searchPaths with
  | some (sp :: rest) => sp :: rest
  | _ => [⟨["src"], true⟩]

/-- `walkFiles(dir)` from `src/upgrade.ts`, with results relative to the
project root (the caller applies `relative(targetDir, file)`): nothing for a
missing path, the path itself when it is a file, otherwise all files beneath
it, skipping `node_modules` and `.git` directories. -/
def walkFilesEntries : FsEntries → List String → List (List String)
  | .nil, _ => []
  | .cons n (.file _ _) rest, pre => (pre ++ [n]) :: walkFilesEntries rest pre
  | .cons n (.dir sub) rest, pre =>
    (if n = "node_modules" ∨ n = ".git" then []
     else walkFilesEntries sub (pre ++ [n])) ++ walkFilesEntries rest pre

/-- See `walkFilesEntries`. -/
def walkFiles (root : Fs) (segs : List String) (trailing : Bool) :
    List (List String) :=
  if existsS root segs trailing then
    match resolveFs root segs with
    | some (.file _ _) => [segs]
    | some (.dir es) => walkFilesEntries es segs
    | none => []
  else []

/-- The scanner's result: a JS `Map` from step title to matching paths. -/
abbrev ScanResults := List (String × List (List String))

/-- The loop body of `scanForMigrationPatterns` for one migration step: no
pattern records an empty list; otherwise every searched path's files are read
as text (unreadable files are skipped by the `try`/`catch`) and those whose
content the test accepts are collected. -/
def scanStep (targetDir : Fs) (results : ScanResults)
    (migration : MigrationStep) : ScanResults :=
  match migration.pattern with
  | none => setA results migration.title []
  | some test =>
    let found := (searchPathsOf migration).foldl
      (fun ms sp =>
        if existsS targetDir sp.segs sp.trailing then
          (walkFiles targetDir sp.segs sp.trailing).foldl
            (fun ms2 file =>
              match readText? targetDir file with
              | some content => if test content then ms2 ++ [file] else ms2
              | none => ms2)
            ms
        else ms)
      []
    setA results migration.title found

/-- `scanForMigrationPatterns(targetDir, migrations)` from `src/upgrade.ts`. -/
def scanForMigrationPatterns (targetDir : Fs)
    (migrations : List MigrationStep) : ScanResults :=
  migrations.foldl (scanStep targetDir) []

/-- The matches of one step exactly as the claim states them: nothing for a
step without a pattern, else the files under its search paths whose readable
text content the test accepts.  (Claim-side definition, to be compared with
the source-derived `scanForMigrationPatterns`.) -/
def stepMatchesSpec (targetDir : Fs) (step : MigrationStep) :
    List (List String) :=
  match step.pattern with
  | none => []
  | some test =>
    (searchPathsOf step).flatMap (fun sp =>
      (walkFiles targetDir sp.segs sp.trailing).filter (fun f =>
        match readText? targetDir f with
        | some content => test content
        | none => false))

/-! ## Claim C8 — the scanner records exactly the matching files -/

theorem walkFiles_not_exists (root : Fs) (segs : List String) (trailing : Bool)
    (h : existsS root segs trailing = false) :
    walkFiles root segs trailing = [] := by
  rw [walkFiles, if_neg (by simp [h])]

theorem scan_fileFold (targetDir : Fs) (test : String → Bool) :
    ∀ (files ms : List (List String)),
      files.foldl
        (fun ms2 file =>
          match readText? targetDir file with
          | some content => if test content then ms2 ++ [file] else ms2
          | none => ms2)
        ms
      = ms ++ files.filter (fun f =>
          match readText? targetDir f with
          | some content => test content
          | none => false)
  | [], ms => by simp
  | f :: files, ms => by
    rw [List.foldl_cons, List.filter_cons]
    cases hr : readText? targetDir f with
    | none =>
      simp only [hr]
      rw [if_neg (by simp)]
      exact scan_fileFold targetDir test files ms
    | some c =>
      simp only [hr]
      by_cases ht : test c = true
      · rw [if_pos ht, if_pos ht, scan_fileFold targetDir test files (ms ++ [f])]
        simp
      · rw [if_neg ht, if_neg ht]
        exact scan_fileFold targetDir test files ms

theorem scan_spFold (targetDir : Fs) (test : String → Bool) :
    ∀ (sps : List PathEntry) (ms : List (List String)),
      sps.foldl
        (fun ms sp =>
          if existsS targetDir sp.segs sp.trailing then
            (walkFiles targetDir sp.segs sp.trailing).foldl
              (fun ms2 file =>
                match readText? targetDir file with
                | some content => if test content then ms2 ++ [file] else ms2
                | none => ms2)
              ms
          else ms)
        ms
      = ms ++ sps.flatMap (fun sp =>
          (walkFiles targetDir sp.segs sp.trailing).filter (fun f =>
            match readText? targetDir f with
            | some content => test content
            | none => false))
  | [], ms => by simp
  | sp :: sps, ms => by
    rw [List.foldl_cons, List.flatMap_cons]
    cases hex : existsS targetDir sp.segs sp.trailing with
    | true =>
      rw [if_pos rfl, scan_fileFold targetDir test,
        scan_spFold targetDir test sps]
      simp
    | false =>
      rw [if_neg (by simp), walkFiles_not_exists targetDir _ _ hex,
        scan_spFold targetDir test sps ms]
      simp

theorem scanStep_self (targetDir : Fs) (results : ScanResults)
    (migration : MigrationStep) :
    getA (scanStep targetDir results migration) migration.title
      = some (stepMatchesSpec targetDir migration) := by
  cases hp : migration.pattern with
  | none =>
    simp only [scanStep, stepMatchesSpec, hp]
    exact getA_setA_self results migration.title []
  | some test =>
    simp only [scanStep, stepMatchesSpec, hp]
    rw [getA_setA_self, scan_spFold targetDir test (searchPathsOf migration) []]
    rfl

theorem scanStep_frame (targetDir : Fs) (results : ScanResults)
    (migration : MigrationStep) (t : String) (ht : t ≠ migration.title) :
    getA (scanStep targetDir results migration) t = getA results t := by
  cases hp : migration.pattern with
  | none =>
    simp only [scanStep, hp]
    exact getA_setA_ne results migration.title t [] ht
  | some test =>
    simp only [scanStep, hp]
    exact getA_setA_ne results migration.title t _ ht

theorem scan_go_frame (targetDir : Fs) :
    ∀ (migs : List MigrationStep) (results : ScanResults) (t : String),
      ¬ t ∈ migs.map MigrationStep.title →
      getA (migs.foldl (scanStep targetDir) results) t = getA results t
  | [], _, _, _ => rfl
  | m :: migs, results, t, ht => by
    have ht2 : ¬ t ∈ m.title :: migs.map MigrationStep.title := ht
    have htm : t ≠ m.title := fun h => ht2 (h ▸ List.mem_cons_self _ _)
    have htl : ¬ t ∈ migs.map MigrationStep.title :=
      fun h => ht2 (List.mem_cons_of_mem _ h)
    rw [List.foldl_cons]
    exact (scan_go_frame targetDir migs _ t htl).trans
      (scanStep_frame targetDir results m t htm)

theorem scan_go_self (targetDir : Fs) :
    ∀ (migs : List MigrationStep) (results : ScanResults),
      (migs.map MigrationStep.title).Nodup →
      ∀ step ∈ migs,
        getA (migs.foldl (scanStep targetDir) results) step.title
          = some (stepMatchesSpec targetDir step)
  | [], _, _, step, hmem => by simp at hmem
  | m :: migs, results, hnd, step, hmem => by
    have hnd2 := List.nodup_cons.mp
      (show (m.title :: migs.map MigrationStep.title).Nodup from hnd)
    rw [List.foldl_cons]
    rcases List.mem_cons.mp hmem with heq | hmem2
    · subst heq
      exact (scan_go_frame targetDir migs _ step.title hnd2.1).trans
        (scanStep_self targetDir results step)
    · exact scan_go_self targetDir migs _ hnd2.2 step hmem2

/-- **C8.**  With the step titles pairwise distinct (the spec declares the
title a unique key), the scanner's result map holds an entry for *every*
step's title: an empty match list for a step without a detection pattern, and
otherwise exactly the project-relative paths of the files under its search
paths (defaulting to `src/`, with `node_modules` and `.git` pruned) whose
text content the compiled test accepts.  A file whose text read fails
(`readText? = none`) is skipped and never aborts the scan — the scanner is a
total function. -/
theorem scanForMigrationPatterns_characterization (targetDir : Fs)
    (migrations : List MigrationStep)
    (hnd : (migrations.map MigrationStep.title).Nodup) :
    ∀ step ∈ migrations,
      getA (scanForMigrationPatterns targetDir migrations) step.title
        = some (stepMatchesSpec targetDir step)
      ∧ (step.pattern = none →
        getA (scanForMigrationPatterns targetDir migrations) step.title
          = some []) := by
  intro step hmem
  have h := scan_go_self targetDir migrations [] hnd step hmem
  exact ⟨h, fun hp => h.trans (congrArg some (by simp only [stepMatchesSpec, hp]))⟩

/-- A project tree for the C8 witness: `src/a.ts` matches, `src/b.ts` does
not, `src/c.bin` is unreadable as text, and a match inside
`src/node_modules` is pruned. -/
def witProjectFs : Fs :=
  some (.dir (.cons "src" (.dir
    (.cons "a.ts" (.file [1] (some "uses oldApi(x)"))
      (.cons "b.ts" (.file [2] (some "clean"))
        (.cons "c.bin" (.file [3] none)
          (.cons "node_modules" (.dir
            (.cons "d.ts" (.file [4] (some "uses oldApi(x)")) .nil)) .nil)))))
    .nil))

/-- The two migration steps of the C8 witness: one with a pattern (matching
the exact text of `src/a.ts`), one informational-only. -/
def witStep1 : MigrationStep :=
  ⟨"step1", "migrate the old API", some (fun s => s == "uses oldApi(x)"), none⟩

/-- See `witStep1`. -/
def witStep2 : MigrationStep := ⟨"step2", "read the changelog", none, none⟩

/-- **C8, witness.**  On the concrete tree, the scanner records exactly
`src/a.ts` for the patterned step (pruning `node_modules`, skipping the
unreadable and non-matching files) and an empty list for the
informational-only step. -/
theorem scanForMigrationPatterns_characterization_witness :
    (([witStep1, witStep2].map MigrationStep.title).Nodup)
    ∧ getA (scanForMigrationPatterns witProjectFs [witStep1, witStep2]) "step1"
        = some [["src", "a.ts"]]
    ∧ getA (scanForMigrationPatterns witProjectFs [witStep1, witStep2]) "step2"
        = some [] := by
  refine ⟨by decide, ?_, ?_⟩
  · have h := (scanForMigrationPatterns_characterization witProjectFs
      [witStep1, witStep2] (by decide) witStep1 (List.mem_cons_self _ _)).1
    exact h.trans (congrArg some (by decide))
  · have h := (scanForMigrationPatterns_characterization witProjectFs
      [witStep1, witStep2] (by decide) witStep2
      (List.mem_cons_of_mem _ (List.mem_cons_self _ _))).2 rfl
    exact h

/-! ## `src/upgrade.ts` — the upgrade orchestrator -/

/-- The `features` block of `.velocity.json` (`src/types.ts`). -/
structure VelocityFeatures where
  demo : Bool
  i18n : Bool
  components : String
deriving DecidableEq, Repr

/-- `VelocityConfig` (`src/types.ts`), the persisted project metadata. -/
structure VelocityConfig where
  version : String
  createdAt : String
  updatedAt : String
  features : VelocityFeatures
deriving DecidableEq, Repr

/-- `UpgradeManifest` (`src/types.ts`), with the dependency blocks as
`DepChanges` and the file lists as `ManifestFiles`. -/
structure UpgradeManifest where
  version : String
  minCliVersion : String
  files : ManifestFiles
  dependencies : DepChanges
  migrations : List MigrationStep

/-- `CLI_VERSION` from `src/upgrade.ts`. -/
def CLI_VERSION : String := "1.6.0"

/-- `FALLBACK_SAFE_FILES` from `src/upgrade.ts`. -/
def FALLBACK_SAFE_FILES : List PathEntry :=
  [⟨["src", "components", "ui"], true⟩,
   ⟨["src", "components", "seo"], true⟩,
   ⟨["src", "components", "layout"], true⟩,
   ⟨["src", "layouts"], true⟩,
   ⟨["src", "lib"], true⟩,
   ⟨["src", "styles", "tokens"], true⟩,
   ⟨["src", "styles", "global.css"], false⟩,
   ⟨["src", "content.config.ts"], false⟩,
   ⟨["tsconfig.json"], false⟩,
   ⟨["eslint.config.js"], false⟩,
   ⟨[".prettierrc"], false⟩,
   ⟨[".prettierignore"], false⟩]

/-- The outcome of the external `downloadTemplate` call: the materialised
tree, the parsed `velocity-manifest.json` if the template ships one, and the
`version` field of the template's own `package.json` if present (both reads
are external JSON glue). -/
structure DownloadedTemplate where
  tree : Fs
  manifest : Option UpgradeManifest
  pkgVersion : Option String

/-- One upgrade run's environment: the persisted config (if the target is a
recognised project), the git status, the users' prompt answers, the result
of the download (`none` = transport failure), the project tree, today's
date, and whether the final `rmSync` would fail. -/
structure UpgradeWorld where
  config : Option VelocityConfig
  gitDirty : Bool
  warnAnswer : Bool
  download : Option DownloadedTemplate
  projectFs : Fs
  confirmAnswer : Bool
  today : String
  rmFails : Bool

/-- The observable actions of one upgrade run, in order. -/
inductive Event where
  | downloadStarted
  | downloaded
  | diffed
  | copiedFile (p : List String)
  | mergedDeps
  | wroteConfig (c : VelocityConfig)
  | scanned
  | cleanupAttempted
deriving DecidableEq, Repr

/-- How the run ends: `process.exit(code)`, a normal return, or an uncaught
exception escaping `upgrade`. -/
inductive RunEnd where
  | exited (code : Nat)
  | returned
  | threw
deriving DecidableEq, Repr

/-- The trace and end of one upgrade run. -/
structure UpgradeResult where
  events : List Event
  finish : RunEnd
deriving DecidableEq, Repr

/-- `cleanup(tempDir)` from `src/upgrade.ts`: the removal is attempted and
any failure is swallowed by the `try`/`catch`, so the emitted event does not
depend on whether removal succeeds. -/
def cleanup (_rmFails : Bool) : List Event := [.cleanupAttempted]

/-- The manifest used by the run: the template's own manifest when present,
else the hardcoded fallback (conservative safe list, no migrations,
`minCliVersion` floor `1.0.0`, version best-effort from the template's
`package.json`). -/
def manifestOf (config : VelocityConfig) (tpl : DownloadedTemplate) :
    UpgradeManifest :=
  match tpl.manifest with
  | some m => m
  | none =>
    { version := tpl.pkgVersion.getD config.version
      minCliVersion := "1.0.0"
      files := ⟨FALLBACK_SAFE_FILES, []⟩
      dependencies := ⟨[], [], []⟩
      migrations := [] }

/-- `{ ...config, version, updatedAt }` — the rewritten `.velocity.json`. -/
def bumpConfig (config : VelocityConfig) (version today : String) :
    VelocityConfig :=
  { config with version := version, updatedAt := today }

/-- Whether a manifest declares no dependency changes at all. -/
def depsEmpty (dc : DepChanges) : Bool :=
  dc.update.isEmpty && dc.remove.isEmpty && dc.add.isEmpty

/-- `upgrade(options)` from `src/upgrade.ts` as a pure function from the
world to the run's event trace and end: missing config exits 1 before any
download; a declined dirty-git warning returns silently; a failed download
cleans up and exits 1; the version gate cleans up and exits 1; being on the
latest version cleans up and returns; a throwing diff (safe path that is a
directory in the project) escapes with no cleanup; no changes at all writes
only the version marker (unless dry-run); dry-run scans and returns; a
declined confirmation returns; otherwise the changed files are copied, the
dependency merge runs when changes are declared, the config is rewritten,
the migration scan reports, and cleanup ends the run. -/
def upgrade (w : UpgradeWorld) (dryRun yes : Bool) : UpgradeResult :=
  match w.config with
  | none => ⟨[], .exited 1⟩
  | some config =>
    if w.gitDirty && !(yes || w.warnAnswer) then ⟨[], .returned⟩
    else
      match w.download with
      | none => ⟨[.downloadStarted] ++ cleanup w.rmFails, .exited 1⟩
      | some tpl =>
        let manifest := manifestOf config tpl
        if isVersionLessThan CLI_VERSION manifest.minCliVersion then
          ⟨[.downloadStarted, .downloaded] ++ cleanup w.rmFails, .exited 1⟩
        else if config.version = manifest.version then
          ⟨[.downloadStarted, .downloaded] ++ cleanup w.rmFails, .returned⟩
        else
          match diffProjects w.projectFs tpl.tree manifest.files with
          | .error _ => ⟨[.downloadStarted, .downloaded, .diffed], .threw⟩
          | .ok diffs =>
            let s := summarizeDiffs diffs
            if s.added = 0 ∧ s.modified = 0 ∧ depsEmpty manifest.dependencies = true then
              if dryRun then
                ⟨[.downloadStarted, .downloaded, .diffed] ++ cleanup w.rmFails,
                 .returned⟩
              else
                ⟨[.downloadStarted, .downloaded, .diffed,
                  .wroteConfig (bumpConfig config manifest.version w.today)]
                  ++ cleanup w.rmFails, .returned⟩
            else
              if dryRun then
                ⟨[.downloadStarted, .downloaded, .diffed, .scanned]
                  ++ cleanup w.rmFails, .returned⟩
              else if !w.confirmAnswer then
                ⟨[.downloadStarted, .downloaded, .diffed] ++ cleanup w.rmFails,
                 .returned⟩
              else
                ⟨([.downloadStarted, .downloaded, .diffed]
                    ++ (diffs.filter (fun d =>
                        d.status == DiffStatus.added
                          || d.status == DiffStatus.modified)).map
                      (fun d => Event.copiedFile d.path)
                    ++ (if depsEmpty manifest.dependencies then []
                        else [.mergedDeps])
                    ++ [.wroteConfig (bumpConfig config manifest.version w.today),
                        .scanned])
                  ++ cleanup w.rmFails, .returned⟩

/-! ## Claim C7 — the version gate aborts before any mutation -/

/-- **C7.**  When the engine's version is below the manifest's
`minCliVersion` (for the manifest actually in force, fallback included), the
run — having passed the project check and the git warning — emits exactly
download, manifest processing, and a cleanup attempt, and exits with code 1:
no diff is computed, no file is copied, no dependency merge happens, and the
persisted metadata is never written. -/
theorem upgrade_version_gate (w : UpgradeWorld) (dryRun yes : Bool)
    (config : VelocityConfig) (tpl : DownloadedTemplate)
    (hcfg : w.config = some config)
    (hgit : w.gitDirty = false ∨ yes = true ∨ w.warnAnswer = true)
    (hdl : w.download = some tpl)
    (hgate : isVersionLessThan CLI_VERSION
      (manifestOf config tpl).minCliVersion = true) :
    upgrade w dryRun yes
      = ⟨[.downloadStarted, .downloaded, .cleanupAttempted], .exited 1⟩
    ∧ (∀ c, Event.wroteConfig c ∉ (upgrade w dryRun yes).events)
    ∧ (∀ p, Event.copiedFile p ∉ (upgrade w dryRun yes).events)
    ∧ Event.mergedDeps ∉ (upgrade w dryRun yes).events
    ∧ Event.diffed ∉ (upgrade w dryRun yes).events
    ∧ Event.cleanupAttempted ∈ (upgrade w dryRun yes).events := by
  have hg : (w.gitDirty && !(yes || w.warnAnswer)) = false := by
    rcases hgit with h | h | h <;> simp [h]
  have hmain : upgrade w dryRun yes
      = ⟨[.downloadStarted, .downloaded, .cleanupAttempted], .exited 1⟩ := by
    rw [upgrade.eq_def, hcfg]
    simp only [hg, hdl, Bool.false_eq_true, if_false]
    rw [if_pos hgate]
    rfl
  refine ⟨hmain, fun c => ?_, fun p => ?_, ?_, ?_, ?_⟩ <;> rw [hmain] <;> simp

/-- The concrete config of the C7/C9 witnesses. -/
def witConfig : VelocityConfig :=
  ⟨"1.0.0", "2024-01-01", "2024-01-01", ⟨false, false, "all"⟩⟩

/-- A downloaded template whose manifest demands a newer engine
(`minCliVersion: "2.0.0"` against `CLI_VERSION = "1.6.0"`). -/
def witTpl : DownloadedTemplate :=
  ⟨some (.dir .nil), some ⟨"9.9.9", "2.0.0", ⟨[], []⟩, ⟨[], [], []⟩, []⟩, none⟩

/-- The concrete world of the C7/C9 witnesses: a recognised project, a clean
git tree, and a successful download of `witTpl`. -/
def witWorld : UpgradeWorld :=
  ⟨some witConfig, false, false, some witTpl, none, false, "2026-10-12", false⟩

/-- **C7, witness.**  The version-gate theorem applied at the concrete
world: the run aborts with exit code 1 after a cleanup attempt. -/
theorem upgrade_version_gate_witness :
    isVersionLessThan CLI_VERSION (manifestOf witConfig witTpl).minCliVersion
        = true
    ∧ upgrade witWorld false false
      = ⟨[.downloadStarted, .downloaded, .cleanupAttempted], .exited 1⟩ := by
  refine ⟨by decide, ?_⟩
  exact (upgrade_version_gate witWorld false false witConfig witTpl rfl
    (Or.inl rfl) rfl (by decide)).1

/-! ## Claim C9 — cleanup on every handled exit path -/

theorem last_cleanup (l : List Event) (b : Bool) :
    (l ++ cleanup b).getLast? = some Event.cleanupAttempted := by
  rw [cleanup, List.getLast?_concat]

/-- **C9.**  On every exit path reached after the download step begins that
ends the run in one of the spec's enumerated ways (a handled fatal exit or a
normal return — the spec's own error taxonomy lists transport failure and
engine-too-old as the fatal errors past this point, both handled), the very
last action before the run ends is the attempt to remove the ephemeral
template directory; and since `cleanup` swallows removal failures, the whole
run's outcome is independent of whether that removal fails.  (An uncaught
exception — `RunEnd.threw`, e.g. the diff engine meeting a directory at a
safe path — escapes `upgrade` outside this enumeration.) -/
theorem upgrade_cleanup_on_exit (w : UpgradeWorld) (dryRun yes : Bool) :
    ((upgrade w dryRun yes).finish ≠ .threw →
      Event.downloadStarted ∈ (upgrade w dryRun yes).events →
      (upgrade w dryRun yes).events.getLast? = some .cleanupAttempted)
    ∧ upgrade { w with rmFails := true } dryRun yes
        = upgrade { w with rmFails := false } dryRun yes := by
  obtain ⟨cfg?, gd, wa, dl?, pfs, ca, td, rf⟩ := w
  constructor
  · intro hth hmem
    rw [upgrade.eq_def] at hth hmem ⊢
    cases cfg? with
    | none => simp at hmem
    | some config =>
      simp only at hth hmem ⊢
      by_cases hg : (gd && !(yes || wa)) = true
      · rw [if_pos hg] at hmem
        simp at hmem
      · rw [if_neg hg] at hth hmem ⊢
        cases dl? with
        | none => exact last_cleanup _ _
        | some tpl =>
          simp only at hth hmem ⊢
          by_cases hv : isVersionLessThan CLI_VERSION
              (manifestOf config tpl).minCliVersion = true
          · rw [if_pos hv]
            exact last_cleanup _ _
          · rw [if_neg hv] at hth ⊢
            by_cases he : config.version = (manifestOf config tpl).version
            · rw [if_pos he]
              exact last_cleanup _ _
            · rw [if_neg he] at hth ⊢
              split
              · rename_i e heq
                rw [heq] at hth
                simp at hth
              · rename_i diffs heq
                by_cases hz : (summarizeDiffs diffs).added = 0
                    ∧ (summarizeDiffs diffs).modified = 0
                    ∧ depsEmpty (manifestOf config tpl).dependencies = true
                · rw [if_pos hz]
                  cases dryRun with
                  | true => exact last_cleanup _ _
                  | false => exact last_cleanup _ _
                · rw [if_neg hz]
                  cases dryRun with
                  | true => exact last_cleanup _ _
                  | false =>
                    cases ca with
                    | false => exact last_cleanup _ _
                    | true => exact last_cleanup _ _
  · rfl

/-- **C9, witness.**  At the concrete gate world the run ends without
throwing, the download had started, and the final event is the cleanup
attempt; the trace is identical whether or not the removal fails. -/
theorem upgrade_cleanup_on_exit_witness :
    ((upgrade witWorld false false).finish ≠ .threw
      ∧ Event.downloadStarted ∈ (upgrade witWorld false false).events)
    ∧ (upgrade witWorld false false).events.getLast?
        = some .cleanupAttempted := by
  refine ⟨⟨by decide, by decide⟩, ?_⟩
  exact (upgrade_cleanup_on_exit witWorld false false).1 (by decide) (by decide)

end Velocity
